import Mathlib

/-!
Verification development for the fastapi-performance-monitor repository.

The Python source is shallowly embedded in Lean: pure functions become Lean
functions on lists/strings, stateful objects become explicit state-passing
functions, and the cooperative asyncio execution of a probe job is modelled
as a sequential fold over the per-target outcomes (asyncio tasks interleave
only at `await` points, and every mutation of the job state in
`PulseProbeManager._probe_endpoint` happens between awaits, so the final
state is the fold of the per-target updates in some order).
-/

namespace FPM

/-! ## PerformanceMiddleware._normalize_path (middleware.py, lines 90-94)

The Python code applies two `re.sub` passes over the raw path string:

    path = re.sub(r'/[0-9a-f]{8}-[0-9a-f]{4}-[0-9a-f]{4}-[0-9a-f]{4}-[0-9a-f]{12}',
                  '/{id}', path, flags=re.IGNORECASE)
    path = re.sub(r'/\d+', '/{id}', path)

Both regexes are literal/character-class patterns; `re.sub` replaces the
leftmost non-overlapping matches, scanning left to right, `\d+` being
greedy.  We embed both passes directly as recursive scanners over
`List Char`.
-/

/-- `[0-9a-f]` with `re.IGNORECASE`: an ASCII hex digit. -/
def hexDig (c : Char) : Bool :=
  c.isDigit || ('a' ≤ c && c ≤ 'f') || ('A' ≤ c && c ≤ 'F')

/-- The literal `-` of the UUID regex. -/
def dashC (c : Char) : Bool := c = '-'

/-- The character classes of the UUID regex after the leading `/`:
8-4-4-4-12 hex digits separated by dashes (a fixed-length pattern). -/
def uuidPat : List (Char → Bool) :=
  List.replicate 8 hexDig ++ [dashC] ++ List.replicate 4 hexDig ++ [dashC] ++
    List.replicate 4 hexDig ++ [dashC] ++ List.replicate 4 hexDig ++ [dashC] ++
    List.replicate 12 hexDig

/-- Match a list of single-character patterns against a prefix of the input,
returning the rest of the input on success. -/
def matchShape : List (Char → Bool) → List Char → Option (List Char)
  | [], cs => some cs
  | _ :: _, [] => none
  | p :: ps, c :: cs => if p c then matchShape ps cs else none

/-- Match the whole UUID regex (leading `/` plus `uuidPat`) at the head of
the input. -/
def uuidMatch : List Char → Option (List Char)
  | [] => none
  | c :: cs => if c = '/' then matchShape uuidPat cs else none

theorem matchShape_length {ps : List (Char → Bool)} {cs rest : List Char}
    (h : matchShape ps cs = some rest) : rest.length ≤ cs.length := by
  induction ps generalizing cs with
  | nil =>
    simp only [matchShape, Option.some.injEq] at h
    simp [← h]
  | cons p ps ih =>
    cases cs with
    | nil => simp [matchShape] at h
    | cons c cs =>
      by_cases hp : p c
      · simp only [matchShape, hp, if_true] at h
        exact Nat.le_succ_of_le (ih h)
      · simp [matchShape, hp] at h

theorem uuidMatch_length {c : Char} {cs rest : List Char}
    (h : uuidMatch (c :: cs) = some rest) : rest.length ≤ cs.length := by
  by_cases hc : c = '/'
  · simp only [uuidMatch, hc, if_true] at h
    exact matchShape_length h
  · simp [uuidMatch, hc] at h

/-- First `re.sub` pass: replace every leftmost non-overlapping match of the
UUID regex with the literal `/{id}`. -/
def subUuid : List Char → List Char
  | [] => []
  | c :: cs =>
    match h : uuidMatch (c :: cs) with
    | some rest => '/' :: '{' :: 'i' :: 'd' :: '}' :: subUuid rest
    | none => c :: subUuid cs
termination_by l => l.length
decreasing_by
  · exact Nat.lt_succ_of_le (uuidMatch_length h)
  · simp

/-- Second `re.sub` pass: replace every leftmost non-overlapping match of
`/\d+` (greedy) with the literal `/{id}`. -/
def subNum : List Char → List Char
  | [] => []
  | c :: cs =>
    if c = '/' ∧ cs.takeWhile Char.isDigit ≠ [] then
      '/' :: '{' :: 'i' :: 'd' :: '}' :: subNum (cs.dropWhile Char.isDigit)
    else
      c :: subNum cs
termination_by l => l.length
decreasing_by
  · exact Nat.lt_succ_of_le (List.dropWhile_sublist Char.isDigit (l := cs)).length_le
  · simp

/-- `PerformanceMiddleware._normalize_path`, on the character list. -/
def normalizeList (l : List Char) : List Char := subNum (subUuid l)

/-- `PerformanceMiddleware._normalize_path`. -/
def normalize_path (s : String) : String := (normalizeList s.toList).asString

/-- Scanner: does any suffix of `l` start with a match of the UUID regex? -/
def hasUuid : List Char → Bool
  | [] => false
  | c :: cs => (uuidMatch (c :: cs)).isSome || hasUuid cs

/-- Scanner: does `l` contain a `/` immediately followed by a decimal digit
(i.e. a match of `/\d+`)? -/
def hasSlashDigit : List Char → Bool
  | c :: d :: cs => (decide (c = '/') && d.isDigit) || hasSlashDigit (d :: cs)
  | _ => false

theorem uuidPat_mem {p : Char → Bool} (hp : p ∈ uuidPat) : p = hexDig ∨ p = dashC := by
  simp only [uuidPat, List.mem_append, List.mem_replicate, List.mem_singleton] at hp
  tauto

theorem uuidPat_not_special {p : Char → Bool} (hp : p ∈ uuidPat) :
    p '/' = false ∧ p '{' = false := by
  rcases uuidPat_mem hp with h | h <;> subst h <;> exact ⟨by decide, by decide⟩

theorem matchShape_brace (r : List Char) : matchShape uuidPat ('{' :: r) = none := by
  have : uuidPat = hexDig :: (List.replicate 7 hexDig ++ [dashC] ++ List.replicate 4 hexDig ++
      [dashC] ++ List.replicate 4 hexDig ++ [dashC] ++ List.replicate 4 hexDig ++ [dashC] ++
      List.replicate 12 hexDig) := by
    simp [uuidPat, List.replicate_succ]
  rw [this]
  simp [matchShape, show hexDig '{' = false by decide]

theorem uuidMatch_ne_slash {c : Char} (h : c ≠ '/') (cs : List Char) :
    uuidMatch (c :: cs) = none := by
  simp [uuidMatch, h]

theorem subUuid_cons_some {c : Char} {cs rest : List Char}
    (h : uuidMatch (c :: cs) = some rest) :
    subUuid (c :: cs) = '/' :: '{' :: 'i' :: 'd' :: '}' :: subUuid rest := by
  rw [subUuid]
  split
  · rename_i r hr
    rw [hr] at h
    cases h
    rfl
  · rename_i hr
    rw [hr] at h
    cases h

theorem subUuid_cons_none {c : Char} {cs : List Char} (h : uuidMatch (c :: cs) = none) :
    subUuid (c :: cs) = c :: subUuid cs := by
  rw [subUuid]
  split
  · rename_i r hr
    rw [hr] at h
    cases h
  · rfl

theorem subNum_cons_pos {c : Char} {cs : List Char}
    (h : c = '/' ∧ cs.takeWhile Char.isDigit ≠ []) :
    subNum (c :: cs) = '/' :: '{' :: 'i' :: 'd' :: '}' :: subNum (cs.dropWhile Char.isDigit) := by
  rw [subNum, if_pos h]

theorem subNum_cons_neg {c : Char} {cs : List Char}
    (h : ¬(c = '/' ∧ cs.takeWhile Char.isDigit ≠ [])) :
    subNum (c :: cs) = c :: subNum cs := by
  rw [subNum, if_neg h]

/-- If a pattern (none of whose character classes accept `/` or `{`) matches a
prefix of `subNum t`, it also matches a prefix of `t`:  `subNum` only ever
copies characters or emits `/{id}` blocks, whose `/` and `{` no such pattern
can cross. -/
theorem matchShape_subNum {ps : List (Char → Bool)}
    (hps : ∀ p ∈ ps, p '/' = false ∧ p '{' = false) {t : List Char}
    (h : (matchShape ps (subNum t)).isSome) : (matchShape ps t).isSome := by
  induction t using subNum.induct generalizing ps with
  | case1 => simpa [subNum] using h
  | case2 c cs hcond ih =>
    cases ps with
    | nil => simp [matchShape]
    | cons p ps' =>
      rw [subNum_cons_pos hcond] at h
      simp [matchShape, (hps p (by simp)).1] at h
  | case3 c cs hcond ih =>
    rw [subNum_cons_neg hcond] at h
    cases ps with
    | nil => simp [matchShape]
    | cons p ps' =>
      by_cases hpc : p c
      · simp only [matchShape, hpc, if_true] at h ⊢
        exact ih (fun q hq => hps q (by simp [hq])) h
      · simp [matchShape, hpc] at h

/-- Same preservation property for the UUID substitution pass. -/
theorem matchShape_subUuid {ps : List (Char → Bool)}
    (hps : ∀ p ∈ ps, p '/' = false ∧ p '{' = false) {t : List Char}
    (h : (matchShape ps (subUuid t)).isSome) : (matchShape ps t).isSome := by
  induction t using subUuid.induct generalizing ps with
  | case1 => simpa [subUuid] using h
  | case2 c cs rest hmatch ih =>
    cases ps with
    | nil => simp [matchShape]
    | cons p ps' =>
      rw [subUuid_cons_some hmatch] at h
      simp [matchShape, (hps p (by simp)).1] at h
  | case3 c cs hmatch ih =>
    rw [subUuid_cons_none hmatch] at h
    cases ps with
    | nil => simp [matchShape]
    | cons p ps' =>
      by_cases hpc : p c
      · simp only [matchShape, hpc, if_true] at h ⊢
        exact ih (fun q hq => hps q (by simp [hq])) h
      · simp [matchShape, hpc] at h

theorem hasUuid_cons_false {a : Char} {t : List Char} (h : hasUuid (a :: t) = false) :
    hasUuid t = false := by
  simp only [hasUuid, Bool.or_eq_false_iff] at h
  exact h.2

/-- No match of the UUID regex survives the UUID substitution pass. -/
theorem hasUuid_subUuid (l : List Char) : hasUuid (subUuid l) = false := by
  induction l using subUuid.induct with
  | case1 => simp [subUuid, hasUuid]
  | case2 c cs rest hmatch ih =>
    rw [subUuid_cons_some hmatch]
    simp [hasUuid, uuidMatch, matchShape_brace, ih]
  | case3 c cs hmatch ih =>
    rw [subUuid_cons_none hmatch]
    simp only [hasUuid, ih, Bool.or_false]
    by_cases hc : c = '/'
    · subst hc
      simp only [uuidMatch, eq_self_iff_true, if_true] at hmatch ⊢
      cases hm : matchShape uuidPat (subUuid cs) with
      | none => rfl
      | some r =>
        have hsome : (matchShape uuidPat (subUuid cs)).isSome := by rw [hm]; rfl
        have hpres := matchShape_subUuid (fun p hp => uuidPat_not_special hp) hsome
        rw [hmatch] at hpres
        cases hpres
    · simp [uuidMatch, hc]

theorem hasUuid_dropWhile {l : List Char} (p : Char → Bool) (h : hasUuid l = false) :
    hasUuid (l.dropWhile p) = false := by
  induction l with
  | nil => simpa using h
  | cons a t ih =>
    by_cases hp : p a
    · rw [List.dropWhile_cons_of_pos hp]
      exact ih (hasUuid_cons_false h)
    · rwa [List.dropWhile_cons_of_neg hp]

/-- The digit substitution pass cannot create a match of the UUID regex. -/
theorem hasUuid_subNum {l : List Char} (h : hasUuid l = false) :
    hasUuid (subNum l) = false := by
  induction l using subNum.induct with
  | case1 => simpa [subNum] using h
  | case2 c cs hcond ih =>
    rw [subNum_cons_pos hcond]
    have hcs : hasUuid (cs.dropWhile Char.isDigit) = false :=
      hasUuid_dropWhile Char.isDigit (hasUuid_cons_false h)
    simp [hasUuid, uuidMatch, matchShape_brace, ih hcs]
  | case3 c cs hcond ih =>
    rw [subNum_cons_neg hcond]
    simp only [hasUuid, ih (hasUuid_cons_false h), Bool.or_false]
    by_cases hc : c = '/'
    · subst hc
      simp only [hasUuid, uuidMatch, eq_self_iff_true, if_true, Bool.or_eq_false_iff] at h
      simp only [uuidMatch, eq_self_iff_true, if_true]
      cases hm : matchShape uuidPat (subNum cs) with
      | none => rfl
      | some r =>
        have hsome : (matchShape uuidPat (subNum cs)).isSome := by rw [hm]; rfl
        have hpres := matchShape_subNum (fun p hp => uuidPat_not_special hp) hsome
        rw [Bool.eq_false_iff] at h
        exact absurd hpres h.1
    · simp [uuidMatch, hc]

theorem subNum_nil : subNum [] = [] := by rw [subNum]

theorem subUuid_nil : subUuid [] = [] := by rw [subUuid]

/-- Both substitution passes preserve the first character of the input. -/
theorem subNum_head (t : List Char) : (subNum t).head? = t.head? := by
  induction t using subNum.induct with
  | case1 => rw [subNum_nil]
  | case2 c cs hcond ih =>
    rw [subNum_cons_pos hcond, hcond.1]
    rfl
  | case3 c cs hcond ih =>
    rw [subNum_cons_neg hcond]
    rfl

theorem hasSlashDigit_append_noSlash {u : List Char} (hu : ∀ c ∈ u, c ≠ '/')
    (v : List Char) : hasSlashDigit (u ++ v) = hasSlashDigit v := by
  induction u with
  | nil => rfl
  | cons a u' ih =>
    have ha : a ≠ '/' := hu a (by simp)
    cases hX : u' ++ v with
    | nil =>
      obtain ⟨h1, h2⟩ := List.append_eq_nil.mp hX
      subst h1
      subst h2
      simp [hasSlashDigit]
    | cons x xs =>
      rw [List.cons_append, hX, hasSlashDigit, ← hX, ih (fun c hc => hu c (by simp [hc]))]
      simp [ha]

/-- The digit substitution pass leaves no `/` immediately followed by a
digit in its output. -/
theorem hasSlashDigit_subNum (l : List Char) : hasSlashDigit (subNum l) = false := by
  induction l using subNum.induct with
  | case1 => simp [subNum, hasSlashDigit]
  | case2 c cs hcond ih =>
    rw [subNum_cons_pos hcond]
    simp only [hasSlashDigit]
    rw [show ('}' :: subNum (cs.dropWhile Char.isDigit)) =
          ['}'] ++ subNum (cs.dropWhile Char.isDigit) from rfl,
      hasSlashDigit_append_noSlash (by decide), ih]
    decide
  | case3 c cs hcond ih =>
    rw [subNum_cons_neg hcond]
    cases hs : subNum cs with
    | nil => simp [hasSlashDigit]
    | cons x xs =>
      rw [hasSlashDigit, ← hs, ih]
      simp only [Bool.or_false, Bool.and_eq_false_iff]
      by_cases hc : c = '/'
      · subst hc
        right
        have hhead : cs.head? = some x := by rw [← subNum_head, hs]; rfl
        cases cs with
        | nil => cases hhead
        | cons y ys =>
          have hy : y = x := by simpa using hhead
          subst hy
          by_cases hd : y.isDigit
          · exact absurd ⟨rfl, by simp [List.takeWhile_cons, hd]⟩ hcond
          · simpa using hd
      · left
        simp [hc]

theorem hasSlashDigit_tail {a : Char} {t : List Char} (h : hasSlashDigit (a :: t) = false) :
    hasSlashDigit t = false := by
  cases t with
  | nil => rfl
  | cons x xs =>
    rw [hasSlashDigit, Bool.or_eq_false_iff] at h
    exact h.2

/-- On input with no `/`-digit occurrence, the digit pass is the identity. -/
theorem subNum_id {l : List Char} (h : hasSlashDigit l = false) : subNum l = l := by
  induction l using subNum.induct with
  | case1 => exact subNum_nil
  | case2 c cs hcond ih =>
    obtain ⟨hc, ht⟩ := hcond
    subst hc
    cases cs with
    | nil => simp at ht
    | cons d cs' =>
      by_cases hd : d.isDigit
      · rw [hasSlashDigit] at h
        simp [hd] at h
      · simp [List.takeWhile_cons, hd] at ht
  | case3 c cs hcond ih =>
    rw [subNum_cons_neg hcond, ih (hasSlashDigit_tail h)]

/-- On input with no UUID-regex match, the UUID pass is the identity. -/
theorem subUuid_id {l : List Char} (h : hasUuid l = false) : subUuid l = l := by
  induction l using subUuid.induct with
  | case1 => exact subUuid_nil
  | case2 c cs rest hmatch ih =>
    rw [hasUuid, hmatch] at h
    simp at h
  | case3 c cs hmatch ih =>
    rw [subUuid_cons_none hmatch, ih (hasUuid_cons_false h)]

/-- Idempotency at the character-list level. -/
theorem normalizeList_idem (l : List Char) :
    normalizeList (normalizeList l) = normalizeList l := by
  unfold normalizeList
  have h1 : hasUuid (subUuid l) = false := hasUuid_subUuid l
  have h2 : hasUuid (subNum (subUuid l)) = false := hasUuid_subNum h1
  have h3 : hasSlashDigit (subNum (subUuid l)) = false := hasSlashDigit_subNum (subUuid l)
  rw [subUuid_id h2, subNum_id h3]

example : normalize_path "/orders/42" = "/orders/{id}" := by
  simp [normalize_path, normalizeList, subUuid, subNum, uuidMatch, matchShape, uuidPat,
    hexDig, dashC]
  rfl
example : normalize_path "/users/123e4567-e89b-12d3-a456-426614174000" = "/users/{id}" := by
  simp [normalize_path, normalizeList, subUuid, subNum, uuidMatch, matchShape, uuidPat,
    hexDig, dashC]
  rfl

/-! ### Segment-level characterisation of the digit substitution

What the code actually does to a path `/s1/s2/.../sn`: in each segment, the
maximal *leading* run of decimal digits (when present) is replaced by the
placeholder `{id}`; the remainder of such a segment, and every segment with no
leading digit, is preserved verbatim. -/

/-- Per-segment effect of the `/\d+` substitution: replace the maximal leading
digit run (if any) with `{id}`, keep the rest of the segment. -/
def segNorm (s : List Char) : List Char :=
  if s.takeWhile Char.isDigit = [] then s
  else '{' :: 'i' :: 'd' :: '}' :: s.dropWhile Char.isDigit

/-- Assemble a path `/s1/s2/.../sn` from its segments. -/
def joinSegs (ss : List (List Char)) : List Char :=
  ss.foldr (fun s acc => '/' :: (s ++ acc)) []

theorem joinSegs_shape (ss : List (List Char)) :
    joinSegs ss = [] ∨ ∃ u, joinSegs ss = '/' :: u := by
  cases ss with
  | nil => exact Or.inl rfl
  | cons s rest => exact Or.inr ⟨s ++ joinSegs rest, rfl⟩

theorem matchShape_append_slash {ps : List (Char → Bool)} (hps : ∀ p ∈ ps, p '/' = false)
    {s : List Char} (h : matchShape ps s = none) (t : List Char) :
    matchShape ps (s ++ '/' :: t) = none := by
  induction s generalizing ps with
  | nil =>
    cases ps with
    | nil => simp [matchShape] at h
    | cons p ps' => simp [matchShape, hps p (by simp)]
  | cons c s' ih =>
    cases ps with
    | nil => simp [matchShape] at h
    | cons p ps' =>
      by_cases hpc : p c
      · simp only [matchShape, hpc, if_true, List.cons_append] at h ⊢
        exact ih (fun q hq => hps q (by simp [hq])) h
      · simp [matchShape, hpc]

theorem matchShape_append_seg {s J : List Char} (hJ : J = [] ∨ ∃ u, J = '/' :: u)
    (h : matchShape uuidPat s = none) : matchShape uuidPat (s ++ J) = none := by
  rcases hJ with hJ | ⟨u, hJ⟩
  · simpa [hJ] using h
  · rw [hJ]
    exact matchShape_append_slash (fun p hp => (uuidPat_not_special hp).1) h u

theorem hasUuid_append_noSlash {u : List Char} (hu : ∀ c ∈ u, c ≠ '/') (v : List Char) :
    hasUuid (u ++ v) = hasUuid v := by
  induction u with
  | nil => rfl
  | cons a u' ih =>
    rw [List.cons_append, hasUuid, uuidMatch_ne_slash (hu a (by simp)),
      ih (fun c hc => hu c (by simp [hc]))]
    rfl

theorem hasUuid_joinSegs {ss : List (List Char)}
    (h : ∀ s ∈ ss, (∀ c ∈ s, c ≠ '/') ∧ matchShape uuidPat s = none) :
    hasUuid (joinSegs ss) = false := by
  induction ss with
  | nil => rfl
  | cons s rest ih =>
    show hasUuid ('/' :: (s ++ joinSegs rest)) = false
    obtain ⟨hns, hsafe⟩ := h s (by simp)
    rw [hasUuid, hasUuid_append_noSlash hns,
      ih (fun q hq => h q (by simp [hq]))]
    simp only [uuidMatch, eq_self_iff_true, if_true]
    rw [matchShape_append_seg (joinSegs_shape rest) hsafe]
    rfl

theorem subNum_append_noSlash {u : List Char} (hu : ∀ c ∈ u, c ≠ '/') (v : List Char) :
    subNum (u ++ v) = u ++ subNum v := by
  induction u with
  | nil => rfl
  | cons a u' ih =>
    rw [List.cons_append, subNum_cons_neg (by simp [hu a (by simp)]),
      ih (fun c hc => hu c (by simp [hc])), List.cons_append]

theorem takeWhile_append_seg {s J : List Char} (hJ : J = [] ∨ ∃ u, J = '/' :: u)
    (h : s.takeWhile Char.isDigit = []) : (s ++ J).takeWhile Char.isDigit = [] := by
  cases s with
  | nil =>
    rcases hJ with hJ | ⟨u, hJ⟩ <;> simp [hJ, List.takeWhile_cons]
  | cons c s' =>
    rw [List.takeWhile_cons] at h
    by_cases hc : Char.isDigit c
    · simp [hc] at h
    · simp [List.takeWhile_cons, hc]

theorem dropWhile_append_seg {s J : List Char} (hJ : J = [] ∨ ∃ u, J = '/' :: u) :
    (s ++ J).dropWhile Char.isDigit = s.dropWhile Char.isDigit ++ J := by
  induction s with
  | nil =>
    rcases hJ with hJ | ⟨u, hJ⟩ <;> simp [hJ, List.dropWhile_cons]
  | cons c s' ih =>
    by_cases hc : Char.isDigit c
    · simp [List.dropWhile_cons, hc, ih]
    · simp [List.dropWhile_cons, hc]

theorem subNum_joinSegs {ss : List (List Char)} (h : ∀ s ∈ ss, ∀ c ∈ s, c ≠ '/') :
    subNum (joinSegs ss) = joinSegs (ss.map segNorm) := by
  induction ss with
  | nil => exact subNum_nil
  | cons s rest ih =>
    have hns : ∀ c ∈ s, c ≠ '/' := h s (by simp)
    have ihr := ih (fun q hq => h q (by simp [hq]))
    show subNum ('/' :: (s ++ joinSegs rest)) = joinSegs (segNorm s :: rest.map segNorm)
    by_cases hd : s.takeWhile Char.isDigit = []
    · rw [subNum_cons_neg (by
        intro hcontra
        exact hcontra.2 (takeWhile_append_seg (joinSegs_shape rest) hd))]
      rw [subNum_append_noSlash hns, ihr]
      show _ = '/' :: (segNorm s ++ joinSegs (rest.map segNorm))
      rw [segNorm, if_pos hd]
    · have hcond : ('/' : Char) = '/' ∧
          (s ++ joinSegs rest).takeWhile Char.isDigit ≠ [] := by
        refine ⟨rfl, ?_⟩
        cases s with
        | nil => simp at hd
        | cons c s' =>
          rw [List.takeWhile_cons] at hd
          rw [List.cons_append, List.takeWhile_cons]
          by_cases hc : Char.isDigit c
          · simp [hc]
          · simp [hc] at hd
      rw [subNum_cons_pos hcond, dropWhile_append_seg (joinSegs_shape rest)]
      have hns' : ∀ c ∈ s.dropWhile Char.isDigit, c ≠ '/' :=
        fun c hc => hns c ((List.dropWhile_sublist Char.isDigit (l := s)).mem hc)
      rw [subNum_append_noSlash hns', ihr]
      show _ = '/' :: (segNorm s ++ joinSegs (rest.map segNorm))
      rw [segNorm, if_neg hd]
      simp

/-- C5 (counterexample): the claim says a segment that merely begins with
digits but also contains non-digit characters is not modified, but the code
rewrites `/42abc` to `/{id}abc` (the regex `/\d+` is not anchored to the end
of the segment). -/
theorem C5_counterexample :
    normalize_path "/42abc" = "/{id}abc" ∧ normalize_path "/42abc" ≠ "/42abc" := by
  have h1 : normalize_path "/42abc" = "/{id}abc" := by
    simp [normalize_path, normalizeList, subUuid, subNum, uuidMatch, matchShape, uuidPat,
      hexDig, dashC]
    rfl
  exact ⟨h1, by rw [h1]; decide⟩

/-- C5 (amended): on a path split into `/`-free segments none of which starts
with a UUID-shaped prefix, the normalizer replaces, in each segment, exactly
the maximal leading run of decimal digits (when present) with the `{id}`
placeholder — so a segment consisting solely of digits becomes `{id}`, a
segment that begins with digits keeps its non-digit remainder after the
placeholder, and every other segment is unchanged. -/
theorem C5_digit_segment_normalization (ss : List (List Char))
    (h : ∀ s ∈ ss, (∀ c ∈ s, c ≠ '/') ∧ matchShape uuidPat s = none) :
    normalize_path (joinSegs ss).asString = (joinSegs (ss.map segNorm)).asString := by
  unfold normalize_path
  show (normalizeList (joinSegs ss)).asString = _
  unfold normalizeList
  rw [subUuid_id (hasUuid_joinSegs h), subNum_joinSegs (fun s hs => (h s hs).1)]

/-- Witness for C5's amended theorem at a concrete path. -/
theorem C5_digit_segment_normalization_witness :
    normalize_path "/42abc/users/77" = "/{id}abc/users/{id}" := by
  have h := C5_digit_segment_normalization
    [['4', '2', 'a', 'b', 'c'], ['u', 's', 'e', 'r', 's'], ['7', '7']] (by decide)
  exact h

/-- C6: `_normalize_path` is idempotent — applying it twice yields the same
result as applying it once, for every input path string.  (It is a pure
function of its input by construction of the embedding.) -/
theorem C6_normalize_path_idempotent (s : String) :
    normalize_path (normalize_path s) = normalize_path s := by
  unfold normalize_path
  show (normalizeList (normalizeList s.toList)).asString = _
  rw [normalizeList_idem]

end FPM

namespace Pulse

/-! ## JSON-like values

The Python objects that make up a FastAPI `openapi()` schema
(`dict` / `list` / `str` / `int` / `bool` / `None`). -/

inductive J where
  | null
  | bool (b : Bool)
  | num (n : Int)
  | str (s : String)
  | arr (xs : List J)
  | obj (kvs : List (String × J))

/-- Lookup in a Python dict modelled as an association list with unique keys
(first binding wins). -/
def dictGet : List (String × α) → String → Option α
  | [], _ => none
  | (k', v) :: rest, k => if k' = k then some v else dictGet rest k

/-- Python dict assignment `d[k] = v`: replaces the binding in place, appends
a new binding otherwise. -/
def dictSet : List (String × α) → String → α → List (String × α)
  | [], k, v => [(k, v)]
  | (k', v') :: rest, k, v =>
    if k' = k then (k', v) :: rest else (k', v') :: dictSet rest k v

/-- Python `d.get(k)` on a JSON value.  Returns `none` when the key is absent;
also returns `none` when the value is not a dict (where the Python code would
raise `AttributeError`; the theorems below only apply it to dict values). -/
def getKey : J → String → Option J
  | .obj kvs, k => dictGet kvs k
  | _, _ => none

/-- Python truthiness `bool(x)` of a JSON-like value. -/
def truthy : J → Bool
  | .null => false
  | .bool b => b
  | .num n => n != 0
  | .str s => !s.isEmpty
  | .arr xs => !xs.isEmpty
  | .obj kvs => !kvs.isEmpty

/-- registry.EndpointInfo (registry.py, lines 16-32). `summary` and `tags`
hold whatever JSON values `operation.get(...)` produced. -/
structure EndpointInfo where
  id : String
  method : String
  path : String
  summary : J
  tags : J
  requires_input : Bool
  has_path_params : Bool
  has_request_body : Bool

/-! ## Probe manager (probe.py)

Latencies and timestamps are rationals (they are wall-clock readings; no
floating-point rounding is relevant to the claims). -/

/-- probe.ProbeResult (lines 20-29). -/
structure ProbeResult where
  endpoint_id : String
  method : String
  path : String
  status : String
  status_code : Option Int := none
  latency_ms : Option ℚ := none
  error : Option String := none
  checked_at : Option ℚ := none
deriving DecidableEq

/-- probe.ProbeJob (lines 44-53).  The asyncio future is modelled as
`future : Option Bool`: `none` means no future was created, `some d` a
future whose `done()` is `d`; a resolved future (`some true`) releases every
`wait_for_completion` waiter. -/
structure ProbeJob where
  job_id : String
  status : String := "queued"
  total_targets : Nat := 0
  completed : Nat := 0
  started_at : Option ℚ := none
  completed_at : Option ℚ := none
  results : List (String × ProbeResult) := []
  future : Option Bool := none
deriving DecidableEq

/-- PulseProbeManager's mutable state (`_jobs`, `_last_job_id`). -/
structure ManagerState where
  jobs : List (String × ProbeJob) := []
  last_job_id : Option String := none

def emptyManager : ManagerState := { jobs := [], last_job_id := none }

/-- The `{endpoint.id: ProbeResult(..., status="queued") for endpoint in
endpoints}` dict comprehension of start_probe (lines 92-100). -/
def initResults (endpoints : List EndpointInfo) : List (String × ProbeResult) :=
  endpoints.foldl
    (fun acc e =>
      dictSet acc e.id
        { endpoint_id := e.id, method := e.method, path := e.path, status := "queued" })
    []

/-- The ProbeJob as constructed by start_probe before `_run_job` is
scheduled: status "queued" (the dataclass default), a fresh unresolved
future, all results pre-populated as "queued". -/
def startJob (jobId : String) (endpoints : List EndpointInfo) : ProbeJob :=
  { job_id := jobId, total_targets := endpoints.length, future := some false,
    results := initResults endpoints }

/-- PulseProbeManager.start_probe (lines 85-105).  The fresh `uuid4` job id
is supplied as an argument.  `loop.create_task(self._run_job(...))` only
schedules `_run_job` — it has not begun executing when `start_probe`
returns — so the scheduled run is modelled separately as `runJob`. -/
def start_probe (m : ManagerState) (jobId : String) (endpoints : List EndpointInfo) :
    ManagerState × String :=
  let job := startJob jobId endpoints
  ({ jobs := dictSet m.jobs jobId job, last_job_id := some jobId }, jobId)

/-- Python string slicing `s[:n]` (by characters). -/
def strTake (s : String) (n : Nat) : String := (s.toList.take n).asString

/-- Oracle for the network outcome of one synthetic call issued by
`_probe_endpoint`: either a response (status code, elapsed milliseconds,
body text) or a raised exception (its `str(exc)` text and the elapsed
milliseconds when it was raised). -/
inductive Outcome where
  | response (status_code : Int) (duration_ms : ℚ) (text : String)
  | exc (msg : String) (duration_ms : ℚ)

/-- PulseProbeManager._probe_endpoint (lines 139-202) for one endpoint,
given the outcome of its synthetic call; `t` is the `time.time()` reading
stored in `checked_at`.  The accompanying `metrics.record_request` call
mutates the (separately modelled) metrics aggregator and does not affect the
job state.  A missing results key would raise `KeyError`, which
`asyncio.gather(..., return_exceptions=True)` swallows before `completed`
is incremented — hence the identity branch; jobs built by `start_probe`
always contain the key. -/
def probeResponse (job : ProbeJob) (e : EndpointInfo) (r : ProbeResult)
    (code : Int) (dur : ℚ) (text : String) (t : ℚ) : ProbeJob :=
  { job with
      results := dictSet job.results e.id
        (if 200 ≤ code ∧ code < 400 then
          if dur ≤ 1000 then
            { r with status := "healthy", status_code := some code,
                     latency_ms := some dur, checked_at := some t }
          else
            { r with status := "warning", status_code := some code,
                     latency_ms := some dur, checked_at := some t }
        else
          { r with status := "critical", error := some (strTake text 500),
                   status_code := some code, latency_ms := some dur, checked_at := some t }),
      completed := job.completed + 1 }

/-- The `except Exception` branch of `_probe_endpoint` (lines 185-202):
`str(exc)` is stored in `error` without truncation. -/
def probeExc (job : ProbeJob) (e : EndpointInfo) (r : ProbeResult)
    (msg : String) (dur : ℚ) (t : ℚ) : ProbeJob :=
  { job with
      results := dictSet job.results e.id
        { r with status := "critical", error := some msg, status_code := none,
                 latency_ms := some dur, checked_at := some t },
      completed := job.completed + 1 }

/-- The body of `_probe_endpoint` once `result = job.results[endpoint.id]`
has succeeded (the successive field assignments of the Python code are
written as single record updates). -/
def probeTarget (job : ProbeJob) (e : EndpointInfo) (r : ProbeResult) (o : Outcome)
    (t : ℚ) : ProbeJob :=
  if e.requires_input then
    { job with
        results := dictSet job.results e.id { r with status := "skipped", checked_at := some t },
        completed := job.completed + 1 }
  else
    match o with
    | .response code dur text => probeResponse job e r code dur text t
    | .exc msg dur => probeExc job e r msg dur t

def probeEndpointStep (job : ProbeJob) (e : EndpointInfo) (o : Outcome) (t : ℚ) : ProbeJob :=
  match dictGet job.results e.id with
  | none => job
  | some r => probeTarget job e r o t

theorem probeEndpointStep_some {job : ProbeJob} {e : EndpointInfo} {r : ProbeResult}
    (o : Outcome) (t : ℚ) (h : dictGet job.results e.id = some r) :
    probeEndpointStep job e o t = probeTarget job e r o t := by
  unfold probeEndpointStep
  rw [h]

theorem probeTarget_response {e : EndpointInfo} (job : ProbeJob) (r : ProbeResult)
    (code : Int) (dur : ℚ) (text : String) (t : ℚ) (hreq : e.requires_input = false) :
    probeTarget job e r (.response code dur text) t = probeResponse job e r code dur text t := by
  unfold probeTarget
  rw [if_neg (by simp [hreq])]

theorem probeTarget_exc {e : EndpointInfo} (job : ProbeJob) (r : ProbeResult)
    (msg : String) (dur : ℚ) (t : ℚ) (hreq : e.requires_input = false) :
    probeTarget job e r (.exc msg dur) t = probeExc job e r msg dur t := by
  unfold probeTarget
  rw [if_neg (by simp [hreq])]

/-- PulseProbeManager._run_job (lines 123-137).  The concurrent
`asyncio.gather` over the `_probe_endpoint` tasks is modelled as a
sequential fold: the asyncio loop is single-threaded and every job mutation
in `_probe_endpoint` happens between awaits, so the tasks apply their
updates one at a time (the fold order stands for the interleaving order).
`aux` is the per-task outcome/clock oracle. -/
def runJob (job : ProbeJob) (endpoints : List EndpointInfo) (aux : List (Outcome × ℚ))
    (t0 t1 : ℚ) : ProbeJob :=
  let j1 := { job with status := "running", started_at := some t0 }
  let j2 := (endpoints.zip aux).foldl (fun j p => probeEndpointStep j p.1 p.2.1 p.2.2) j1
  { j2 with status := "completed", completed_at := some t1,
            future := match j2.future with | some false => some true | f => f }

end Pulse

namespace Pulse

theorem dictGet_dictSet (d : List (String × α)) (k k' : String) (v : α) :
    dictGet (dictSet d k v) k' = if k = k' then some v else dictGet d k' := by
  induction d with
  | nil =>
    by_cases hk : k = k' <;> simp [dictSet, dictGet, hk]
  | cons a rest ih =>
    obtain ⟨ka, va⟩ := a
    by_cases hka : ka = k
    · subst hka
      by_cases hk : ka = k' <;> simp [dictSet, dictGet, hk]
    · by_cases hk' : ka = k'
      · subst hk'
        have : ¬(k = ka) := fun h => hka h.symm
        simp [dictSet, dictGet, hka, this]
      · simp [dictSet, dictGet, hka, hk', ih]

theorem dictGet_isSome_dictSet {d : List (String × α)} {k' : String} (k : String) (v : α)
    (h : (dictGet d k').isSome) : (dictGet (dictSet d k v) k').isSome := by
  rw [dictGet_dictSet]
  by_cases hk : k = k' <;> simp [hk, h]

theorem dictGet_dictSet_cases {d : List (String × α)} {k k' : String} {v r : α}
    (h : dictGet (dictSet d k v) k' = some r) : r = v ∨ dictGet d k' = some r := by
  rw [dictGet_dictSet] at h
  by_cases hk : k = k'
  · simp [hk] at h
    exact Or.inl h.symm
  · simp [hk] at h
    exact Or.inr h

theorem foldl_dictSet_isSome_mono (l : List EndpointInfo) (f : EndpointInfo → ProbeResult)
    {k : String} :
    ∀ acc : List (String × ProbeResult), (dictGet acc k).isSome →
      (dictGet (l.foldl (fun a x => dictSet a x.id (f x)) acc) k).isSome := by
  induction l with
  | nil => intro acc h; simpa using h
  | cons x xs ih =>
    intro acc h
    exact ih _ (dictGet_isSome_dictSet x.id (f x) h)

theorem foldl_dictSet_isSome (l : List EndpointInfo) (f : EndpointInfo → ProbeResult)
    {e : EndpointInfo} (he : e ∈ l) :
    ∀ acc : List (String × ProbeResult),
      (dictGet (l.foldl (fun a x => dictSet a x.id (f x)) acc) e.id).isSome := by
  induction l with
  | nil => cases he
  | cons x xs ih =>
    intro acc
    rcases List.mem_cons.mp he with he1 | he2
    · subst he1
      exact foldl_dictSet_isSome_mono xs f _
        (by rw [dictGet_dictSet]; simp)
    · exact ih he2 _

theorem foldl_dictSet_values (l : List EndpointInfo) (f : EndpointInfo → ProbeResult)
    (P : ProbeResult → Prop) (hf : ∀ x ∈ l, P (f x)) :
    ∀ acc : List (String × ProbeResult), (∀ k r, dictGet acc k = some r → P r) →
      ∀ k r, dictGet (l.foldl (fun a x => dictSet a x.id (f x)) acc) k = some r → P r := by
  induction l with
  | nil => intro acc hacc k r h; exact hacc k r h
  | cons x xs ih =>
    intro acc hacc k r h
    refine ih (fun q hq => hf q (by simp [hq])) _ ?_ k r h
    intro k' r' h'
    rcases dictGet_dictSet_cases h' with h'' | h''
    · rw [h'']; exact hf x (by simp)
    · exact hacc k' r' h''

theorem initResults_isSome {endpoints : List EndpointInfo} {e : EndpointInfo}
    (he : e ∈ endpoints) : (dictGet (initResults endpoints) e.id).isSome :=
  foldl_dictSet_isSome endpoints _ he []

theorem initResults_status {endpoints : List EndpointInfo} {k : String} {r : ProbeResult}
    (h : dictGet (initResults endpoints) k = some r) : r.status = "queued" := by
  refine foldl_dictSet_values endpoints _ (fun r => r.status = "queued")
    (fun x _ => rfl) [] (fun k r h => by simp [dictGet] at h) k r h

theorem probeTarget_completed (job : ProbeJob) (e : EndpointInfo) (r : ProbeResult)
    (o : Outcome) (t : ℚ) : (probeTarget job e r o t).completed = job.completed + 1 := by
  unfold probeTarget
  by_cases hq : e.requires_input
  · simp [hq]
  · cases o <;> simp [hq, probeResponse, probeExc]

theorem probeEndpointStep_completed {job : ProbeJob} {e : EndpointInfo} {o : Outcome}
    {t : ℚ} (h : (dictGet job.results e.id).isSome) :
    (probeEndpointStep job e o t).completed = job.completed + 1 := by
  obtain ⟨r, hr⟩ := Option.isSome_iff_exists.mp h
  rw [probeEndpointStep_some o t hr, probeTarget_completed]

theorem probeTarget_keys (job : ProbeJob) (e : EndpointInfo) (r : ProbeResult)
    (o : Outcome) (t : ℚ) {k : String} (h : (dictGet job.results k).isSome) :
    (dictGet (probeTarget job e r o t).results k).isSome := by
  unfold probeTarget
  by_cases hq : e.requires_input
  · simpa [hq] using dictGet_isSome_dictSet e.id _ h
  · cases o <;> simpa [hq, probeResponse, probeExc] using dictGet_isSome_dictSet e.id _ h

theorem probeEndpointStep_keys {job : ProbeJob} {e : EndpointInfo} {o : Outcome}
    {t : ℚ} {k : String} (h : (dictGet job.results k).isSome) :
    (dictGet (probeEndpointStep job e o t).results k).isSome := by
  unfold probeEndpointStep
  cases hres : dictGet job.results e.id with
  | none => simpa using h
  | some r => exact probeTarget_keys job e r o t h

theorem probeTarget_future (job : ProbeJob) (e : EndpointInfo) (r : ProbeResult)
    (o : Outcome) (t : ℚ) : (probeTarget job e r o t).future = job.future := by
  unfold probeTarget
  by_cases hq : e.requires_input
  · simp [hq]
  · cases o <;> simp [hq, probeResponse, probeExc]

theorem probeEndpointStep_future {job : ProbeJob} {e : EndpointInfo} {o : Outcome}
    {t : ℚ} : (probeEndpointStep job e o t).future = job.future := by
  unfold probeEndpointStep
  cases hres : dictGet job.results e.id with
  | none => rfl
  | some r => exact probeTarget_future job e r o t

theorem probeTarget_total (job : ProbeJob) (e : EndpointInfo) (r : ProbeResult)
    (o : Outcome) (t : ℚ) : (probeTarget job e r o t).total_targets = job.total_targets := by
  unfold probeTarget
  by_cases hq : e.requires_input
  · simp [hq]
  · cases o <;> simp [hq, probeResponse, probeExc]

theorem probeEndpointStep_total {job : ProbeJob} {e : EndpointInfo} {o : Outcome}
    {t : ℚ} : (probeEndpointStep job e o t).total_targets = job.total_targets := by
  unfold probeEndpointStep
  cases hres : dictGet job.results e.id with
  | none => rfl
  | some r => exact probeTarget_total job e r o t

/-- Each gathered `_probe_endpoint` task increments `completed` exactly once
(provided its endpoint id is present in the results dict), and none of them
touches the job future or the target count. -/
theorem probeFold_invariant (steps : List (EndpointInfo × Outcome × ℚ)) :
    ∀ j : ProbeJob, (∀ s ∈ steps, (dictGet j.results s.1.id).isSome) →
      (steps.foldl (fun j p => probeEndpointStep j p.1 p.2.1 p.2.2) j).completed
          = j.completed + steps.length ∧
      (steps.foldl (fun j p => probeEndpointStep j p.1 p.2.1 p.2.2) j).future = j.future ∧
      (steps.foldl (fun j p => probeEndpointStep j p.1 p.2.1 p.2.2) j).total_targets
          = j.total_targets := by
  induction steps with
  | nil => intro j _; simp
  | cons s rest ih =>
    intro j hpres
    have hs : (dictGet j.results s.1.id).isSome := hpres s (by simp)
    have ihr := ih (probeEndpointStep j s.1 s.2.1 s.2.2)
      (fun q hq => probeEndpointStep_keys (hpres q (by simp [hq])))
    simp only [List.foldl_cons]
    refine ⟨?_, ?_, ?_⟩
    · rw [ihr.1, probeEndpointStep_completed hs, List.length_cons]
      omega
    · rw [ihr.2.1, probeEndpointStep_future]
    · rw [ihr.2.2, probeEndpointStep_total]

end Pulse

namespace Pulse

theorem strTake_length_le (s : String) (n : Nat) : (strTake s n).length ≤ n := by
  have h : (strTake s n).length = (s.toList.take n).length := rfl
  rw [h]
  exact List.length_take_le _ _

/-- C1: for every probe job started via `start_probe` on any finite endpoint
list (including `[]`) and for every per-target outcome (the skipped branch,
a response, or a raised exception — `aux` supplies one outcome per target),
the completed counter ends at exactly one increment per target,
the job ends in status "completed" with `completed = total_targets`, its
`completed_at` timestamp is set, and the job future is resolved (releasing
every `wait_for_completion` waiter); the run is a terminating fold, so the
job cannot stay at "running". -/
theorem C1_probe_job_always_completes (jobId : String) (endpoints : List EndpointInfo)
    (aux : List (Outcome × ℚ)) (t0 t1 : ℚ) (hlen : aux.length = endpoints.length) :
    (runJob (startJob jobId endpoints) endpoints aux t0 t1).completed = endpoints.length ∧
    (runJob (startJob jobId endpoints) endpoints aux t0 t1).total_targets = endpoints.length ∧
    (runJob (startJob jobId endpoints) endpoints aux t0 t1).status = "completed" ∧
    (runJob (startJob jobId endpoints) endpoints aux t0 t1).completed_at = some t1 ∧
    (runJob (startJob jobId endpoints) endpoints aux t0 t1).future = some true := by
  have hpres : ∀ s ∈ endpoints.zip aux,
      (dictGet ({ startJob jobId endpoints with
          status := "running", started_at := some t0 } : ProbeJob).results s.1.id).isSome := by
    intro s hs
    obtain ⟨s1, s2⟩ := s
    exact initResults_isSome (List.of_mem_zip hs).1
  have hinv := probeFold_invariant (endpoints.zip aux)
      { startJob jobId endpoints with status := "running", started_at := some t0 } hpres
  have hzlen : (endpoints.zip aux).length = endpoints.length := by
    rw [List.length_zip, hlen, Nat.min_self]
  refine ⟨?_, ?_, rfl, rfl, ?_⟩
  · have hb : (runJob (startJob jobId endpoints) endpoints aux t0 t1).completed =
        ((endpoints.zip aux).foldl (fun j p => probeEndpointStep j p.1 p.2.1 p.2.2)
          { startJob jobId endpoints with
              status := "running", started_at := some t0 }).completed := rfl
    rw [hb, hinv.1, hzlen]
    show 0 + endpoints.length = endpoints.length
    omega
  · have hb : (runJob (startJob jobId endpoints) endpoints aux t0 t1).total_targets =
        ((endpoints.zip aux).foldl (fun j p => probeEndpointStep j p.1 p.2.1 p.2.2)
          { startJob jobId endpoints with
              status := "running", started_at := some t0 }).total_targets := rfl
    rw [hb, hinv.2.2]
    rfl
  · have hb : (runJob (startJob jobId endpoints) endpoints aux t0 t1).future =
        (match ((endpoints.zip aux).foldl (fun j p => probeEndpointStep j p.1 p.2.1 p.2.2)
          { startJob jobId endpoints with
              status := "running", started_at := some t0 }).future with
          | some false => some true
          | f => f) := rfl
    rw [hb, hinv.2.1]
    rfl

/-- Endpoint used in concrete witnesses: auto-probeable. -/
def wEp : EndpointInfo :=
  { id := "GET /ping", method := "GET", path := "/ping", summary := J.null, tags := J.arr [],
    requires_input := false, has_path_params := false, has_request_body := false }

/-- Endpoint used in concrete witnesses: requires input, hence skipped. -/
def wEpSkip : EndpointInfo :=
  { id := "POST /orders", method := "POST", path := "/orders", summary := J.null,
    tags := J.arr [], requires_input := true, has_path_params := false,
    has_request_body := true }

theorem C1_probe_job_always_completes_witness :
    (runJob (startJob "jw" [wEp, wEpSkip]) [wEp, wEpSkip]
        [(.response 200 5 "ok", 10), (.exc "boom" 2, 11)] 0 20).completed = 2 ∧
    (runJob (startJob "jw" [wEp, wEpSkip]) [wEp, wEpSkip]
        [(.response 200 5 "ok", 10), (.exc "boom" 2, 11)] 0 20).total_targets = 2 ∧
    (runJob (startJob "jw" [wEp, wEpSkip]) [wEp, wEpSkip]
        [(.response 200 5 "ok", 10), (.exc "boom" 2, 11)] 0 20).status = "completed" ∧
    (runJob (startJob "jw" [wEp, wEpSkip]) [wEp, wEpSkip]
        [(.response 200 5 "ok", 10), (.exc "boom" 2, 11)] 0 20).completed_at = some 20 ∧
    (runJob (startJob "jw" [wEp, wEpSkip]) [wEp, wEpSkip]
        [(.response 200 5 "ok", 10), (.exc "boom" 2, 11)] 0 20).future = some true :=
  C1_probe_job_always_completes "jw" [wEp, wEpSkip]
    [(.response 200 5 "ok", 10), (.exc "boom" 2, 11)] 0 20 rfl

end Pulse

namespace Pulse

/-- C2 (amended): for a probed endpoint (`requires_input = false`), the
stored ProbeResult is classified from the single synthetic call: a response
with `200 ≤ code < 400` and latency ≤ 1000 ms is "healthy"; such a response
with latency > 1000 ms is "warning"; any other response is "critical" with
error text `response.text[:500]` (truncated to at most 500 characters); a
raised transport/timeout exception is "critical" with error text `str(exc)`
stored untruncated (the claim's assertion that exception text is also
truncated does not hold — see the counterexample). -/
theorem C2_probe_outcome_classification (job : ProbeJob) (e : EndpointInfo) (t : ℚ)
    (r : ProbeResult) (hr : dictGet job.results e.id = some r)
    (hreq : e.requires_input = false) :
    (∀ (code : Int) (dur : ℚ) (text : String), 200 ≤ code → code < 400 → dur ≤ 1000 →
      dictGet (probeEndpointStep job e (.response code dur text) t).results e.id =
        some { r with status := "healthy", status_code := some code,
                      latency_ms := some dur, checked_at := some t }) ∧
    (∀ (code : Int) (dur : ℚ) (text : String), 200 ≤ code → code < 400 → 1000 < dur →
      dictGet (probeEndpointStep job e (.response code dur text) t).results e.id =
        some { r with status := "warning", status_code := some code,
                      latency_ms := some dur, checked_at := some t }) ∧
    (∀ (code : Int) (dur : ℚ) (text : String), ¬(200 ≤ code ∧ code < 400) →
      dictGet (probeEndpointStep job e (.response code dur text) t).results e.id =
        some { r with status := "critical", error := some (strTake text 500),
                      status_code := some code, latency_ms := some dur,
                      checked_at := some t } ∧
      (strTake text 500).length ≤ 500) ∧
    (∀ (msg : String) (dur : ℚ),
      dictGet (probeEndpointStep job e (.exc msg dur) t).results e.id =
        some { r with status := "critical", error := some msg, status_code := none,
                      latency_ms := some dur, checked_at := some t }) := by
  refine ⟨?_, ?_, ?_, ?_⟩
  · intro code dur text h1 h2 h3
    rw [probeEndpointStep_some _ t hr, probeTarget_response job r code dur text t hreq]
    unfold probeResponse
    rw [if_pos ⟨h1, h2⟩, if_pos h3]
    simp [dictGet_dictSet]
  · intro code dur text h1 h2 h3
    rw [probeEndpointStep_some _ t hr, probeTarget_response job r code dur text t hreq]
    unfold probeResponse
    rw [if_pos ⟨h1, h2⟩, if_neg (not_le.mpr h3)]
    simp [dictGet_dictSet]
  · intro code dur text h1
    refine ⟨?_, strTake_length_le text 500⟩
    rw [probeEndpointStep_some _ t hr, probeTarget_response job r code dur text t hreq]
    unfold probeResponse
    rw [if_neg h1]
    simp [dictGet_dictSet]
  · intro msg dur
    rw [probeEndpointStep_some _ t hr, probeTarget_exc job r msg dur t hreq]
    unfold probeExc
    simp [dictGet_dictSet]

/-- C2 (counterexample): no bound `B` truncates the error text of the
exception branch — `result.error = str(exc)` is stored in full, so for every
`B` an exception message of length `B + 1` yields error text longer than
`B`.  (Only the non-success-response branch truncates, to 500.) -/
theorem C2_exception_error_unbounded :
    ¬ ∃ B : Nat, ∀ msg : String, ∀ r : ProbeResult,
      dictGet (probeEndpointStep (startJob "w" [wEp]) wEp (.exc msg 0) 0).results "GET /ping"
          = some r →
      ∀ err ∈ r.error, err.length ≤ B := by
  rintro ⟨B, hB⟩
  have hstep : dictGet (probeEndpointStep (startJob "w" [wEp]) wEp
      (.exc (String.mk (List.replicate (B + 1) 'a')) 0) 0).results "GET /ping" =
      some { endpoint_id := "GET /ping", method := "GET", path := "/ping",
             status := "critical", status_code := none, latency_ms := some 0,
             error := some (String.mk (List.replicate (B + 1) 'a')),
             checked_at := some 0 } := rfl
  have h := hB _ _ hstep (String.mk (List.replicate (B + 1) 'a')) rfl
  have hlen : (String.mk (List.replicate (B + 1) 'a')).length = B + 1 := by
    show (List.replicate (B + 1) 'a').length = B + 1
    simp
  omega

theorem C2_probe_outcome_classification_witness :
    dictGet (probeEndpointStep (startJob "w2" [wEp]) wEp (.response 200 5 "ok") 9).results
        "GET /ping" =
      some { endpoint_id := "GET /ping", method := "GET", path := "/ping",
             status := "healthy", status_code := some 200, latency_ms := some 5,
             checked_at := some 9 } := by
  have h := C2_probe_outcome_classification (startJob "w2" [wEp]) wEp 9
    { endpoint_id := "GET /ping", method := "GET", path := "/ping", status := "queued" }
    rfl rfl
  exact h.1 200 5 "ok" (by decide) (by decide) (by norm_num)

/-- C4 (amended): upon return of start_probe, the stored job holds one
"queued" ProbeResult per supplied endpoint id, `total_targets` is the number
of supplied endpoints, the returned value is the job id, and the job's
status is still "queued" — not "running": `_run_job` (which sets "running")
has only been scheduled with `loop.create_task` and has not started when
`start_probe` returns; the call does not wait for any probe to finish. -/
theorem C4_start_probe_state (m : ManagerState) (jobId : String)
    (endpoints : List EndpointInfo) :
    (start_probe m jobId endpoints).2 = jobId ∧
    dictGet (start_probe m jobId endpoints).1.jobs jobId = some (startJob jobId endpoints) ∧
    (startJob jobId endpoints).status = "queued" ∧
    (startJob jobId endpoints).total_targets = endpoints.length ∧
    (startJob jobId endpoints).completed = 0 ∧
    (∀ e ∈ endpoints, ∃ r, dictGet (startJob jobId endpoints).results e.id = some r ∧
        r.status = "queued") ∧
    (start_probe m jobId endpoints).1.last_job_id = some jobId := by
  refine ⟨rfl, ?_, rfl, rfl, rfl, ?_, rfl⟩
  · show dictGet (dictSet m.jobs jobId (startJob jobId endpoints)) jobId = _
    rw [dictGet_dictSet, if_pos rfl]
  · intro e he
    obtain ⟨r, hrr⟩ := Option.isSome_iff_exists.mp (initResults_isSome he)
    exact ⟨r, hrr, initResults_status hrr⟩

/-- C4 (counterexample): the claim asserts the job status is "running" upon
return of start_probe; it is in fact "queued". -/
theorem C4_status_counterexample :
    ((dictGet (start_probe emptyManager "job-1" [wEp]).1.jobs "job-1").map ProbeJob.status
        = some "queued") ∧ ("queued" : String) ≠ "running" := by
  exact ⟨rfl, by decide⟩

theorem C4_start_probe_state_witness :
    (start_probe emptyManager "job-2" [wEp, wEpSkip]).2 = "job-2" ∧
    dictGet (start_probe emptyManager "job-2" [wEp, wEpSkip]).1.jobs "job-2" =
        some (startJob "job-2" [wEp, wEpSkip]) ∧
    (startJob "job-2" [wEp, wEpSkip]).status = "queued" ∧
    (startJob "job-2" [wEp, wEpSkip]).total_targets = 2 ∧
    (startJob "job-2" [wEp, wEpSkip]).completed = 0 ∧
    (∀ e ∈ [wEp, wEpSkip], ∃ r, dictGet (startJob "job-2" [wEp, wEpSkip]).results e.id = some r ∧
        r.status = "queued") ∧
    (start_probe emptyManager "job-2" [wEp, wEpSkip]).1.last_job_id = some "job-2" :=
  C4_start_probe_state emptyManager "job-2" [wEp, wEpSkip]

end Pulse

namespace Pulse

/-! ## Metrics aggregator (for C3) and SLA verdicts (for C9)

The metrics aggregator itself (`PulseMetrics` / `PerformanceMetrics`,
`metrics.py` in both packages) is not among the available source files —
only its callers are — so its `record` operation and the shape of its
`summary` are modelled from the spec. -/

/-- Modelled from the spec: the per-key mutable aggregate EndpointStats of
§3 — "totalRequests, successCount, errorCount (status ≥ 400), and a bounded
recency window of observed latencies (fixed capacity, oldest evicted
first)".  (`metrics.py` is not under src/.) -/
structure EndpointStats where
  total_requests : Nat := 0
  success_count : Nat := 0
  error_count : Nat := 0
  latencies : List ℚ := []
deriving DecidableEq

/-- Modelled from the spec: `record(endpointKey, statusCode, durationMs,
correlationId)` restricted to one key, §4.2 — "increments totalRequests;
increments successCount if statusCode < 400 else errorCount; pushes
durationMs into the bounded latency window for that key, evicting the
oldest sample if at capacity".  `cap` is the fixed window capacity.
(`metrics.py` is not under src/.) -/
def record (cap : Nat) (st : EndpointStats) (statusCode : Int) (durationMs : ℚ) :
    EndpointStats :=
  { st with
      total_requests := st.total_requests + 1,
      success_count := if statusCode < 400 then st.success_count + 1 else st.success_count,
      error_count := if statusCode < 400 then st.error_count else st.error_count + 1,
      latencies :=
        if st.latencies.length < cap then st.latencies ++ [durationMs]
        else st.latencies.drop 1 ++ [durationMs] }

theorem record_invariant {cap : Nat} (hcap : 0 < cap) {st : EndpointStats}
    (h1 : st.total_requests = st.success_count + st.error_count)
    (h2 : st.latencies.length ≤ cap) (statusCode : Int) (durationMs : ℚ) :
    (record cap st statusCode durationMs).total_requests =
        (record cap st statusCode durationMs).success_count +
          (record cap st statusCode durationMs).error_count ∧
    (record cap st statusCode durationMs).latencies.length ≤ cap := by
  constructor
  · by_cases hs : statusCode < 400 <;> simp [record, hs] <;> omega
  · by_cases hl : st.latencies.length < cap
    · simp [record, hl]
      omega
    · have hlen : st.latencies.length = cap := le_antisymm h2 (not_lt.mp hl)
      simp [record, hl]
      omega

/-- C3: for every sequence of `record` calls on one endpoint key, starting
from any state satisfying the invariant (in particular the fresh zero
state), after every call `totalRequests = successCount + errorCount` and the
latency window never exceeds the fixed capacity (the update drops the oldest
sample when at capacity). -/
theorem C3_record_invariants (cap : Nat) (hcap : 0 < cap) (calls : List (Int × ℚ)) :
    ∀ st : EndpointStats,
      st.total_requests = st.success_count + st.error_count →
      st.latencies.length ≤ cap →
      ((calls.foldl (fun st c => record cap st c.1 c.2) st).total_requests =
          (calls.foldl (fun st c => record cap st c.1 c.2) st).success_count +
            (calls.foldl (fun st c => record cap st c.1 c.2) st).error_count ∧
        (calls.foldl (fun st c => record cap st c.1 c.2) st).latencies.length ≤ cap) := by
  induction calls with
  | nil => intro st h1 h2; exact ⟨h1, h2⟩
  | cons c rest ih =>
    intro st h1 h2
    have hstep := record_invariant hcap h1 h2 c.1 c.2
    simpa using ih (record cap st c.1 c.2) hstep.1 hstep.2

theorem C3_record_invariants_witness :
    ([( (200 : Int), (3 : ℚ) ), ((500 : Int), (7 : ℚ)), ((404 : Int), (1 : ℚ))].foldl
        (fun st c => record 2 st c.1 c.2) {}).total_requests =
      ([( (200 : Int), (3 : ℚ) ), ((500 : Int), (7 : ℚ)), ((404 : Int), (1 : ℚ))].foldl
        (fun st c => record 2 st c.1 c.2) {}).success_count +
        ([( (200 : Int), (3 : ℚ) ), ((500 : Int), (7 : ℚ)), ((404 : Int), (1 : ℚ))].foldl
          (fun st c => record 2 st c.1 c.2) {}).error_count ∧
      ([( (200 : Int), (3 : ℚ) ), ((500 : Int), (7 : ℚ)), ((404 : Int), (1 : ℚ))].foldl
        (fun st c => record 2 st c.1 c.2) {}).latencies.length ≤ 2 :=
  C3_record_invariants 2 (by decide)
    [((200 : Int), (3 : ℚ)), ((500 : Int), (7 : ℚ)), ((404 : Int), (1 : ℚ))] {} rfl
    (by decide)

/-- Modelled from the spec: the "summary" block of `get_metrics()`, §4.2 —
`p95_response_time` is present exactly when at least one latency sample is
retained, `error_rate` exactly when at least one request has been recorded;
with zero observations both are omitted.  (`metrics.py` is not under
src/.) -/
structure MetricsSummary where
  p95_response_time : Option ℚ
  error_rate : Option ℚ

/-- The summary of a fresh aggregator with zero observations: both keys
omitted. -/
def freshSummary : MetricsSummary := { p95_response_time := none, error_rate := none }

/-- The `sla_compliance` block computed by `get_pulse_metrics`
(fastapi_pulse/router.py, lines 100-135). -/
structure SlaCompliance where
  latency_sla_met : Option Bool
  error_rate_sla_met : Bool
  overall_sla_met : Option Bool
deriving DecidableEq

/-- get_pulse_metrics (router.py lines 100-135): `error_rate =
summary.get("error_rate", 0)`; `latency_sla_met = p95 < 200` when
`"p95_response_time" in summary` else `None`; `error_rate_sla_met =
error_rate < 5`; `overall_sla_met = None` if `latency_sla_met is None` else
`latency_sla_met and error_rate_sla_met`. -/
def slaOf (s : MetricsSummary) : SlaCompliance :=
  { latency_sla_met := s.p95_response_time.map (fun p => decide (p < 200)),
    error_rate_sla_met := decide (s.error_rate.getD 0 < 5),
    overall_sla_met :=
      match s.p95_response_time.map (fun p => decide (p < 200)) with
      | none => none
      | some b => some (b && decide (s.error_rate.getD 0 < 5)) }

/-- C9: with zero observations, the latency SLA verdict and overall SLA
verdict are `None` (not `false`) while the error-rate SLA verdict is `true`
(error rate defaults to 0 < 5); whenever the latency verdict is defined the
overall verdict is the conjunction of the two verdicts. -/
theorem C9_sla_no_data_distinction :
    (slaOf freshSummary).latency_sla_met = none ∧
    (slaOf freshSummary).overall_sla_met = none ∧
    (slaOf freshSummary).error_rate_sla_met = true ∧
    ∀ (s : MetricsSummary) (b : Bool), (slaOf s).latency_sla_met = some b →
      (slaOf s).overall_sla_met = some (b && (slaOf s).error_rate_sla_met) := by
  refine ⟨rfl, rfl, by decide, ?_⟩
  intro s b h
  cases hp : s.p95_response_time with
  | none => simp [slaOf, hp] at h
  | some p =>
    simp only [slaOf, hp, Option.map_some'] at h ⊢
    cases h
    rfl

theorem C9_sla_no_data_distinction_witness :
    (slaOf { p95_response_time := some 100, error_rate := some 2 }).overall_sla_met =
      some true := by
  have h := C9_sla_no_data_distinction.2.2.2
    { p95_response_time := some 100, error_rate := some 2 } true (by decide)
  simpa using h

end Pulse

namespace Pulse

/-! ## Canonical JSON serialization (registry.py, refresh, lines 51-58)

`json.dumps(paths, sort_keys=True, separators=(",", ":"))` sorts the keys of
every object while serializing.  We model it as recursive key-sorting
(`canonJ`) followed by plain serialization (`jdumpRaw`).  The final
`hashlib.sha256(...).hexdigest()` is abstracted as an arbitrary injective
function of the serialized string (collisions assumed absent). -/

/-- Lexicographic comparison of character lists (Python string `<=`,
comparing code points).  Defined from scratch because it must evaluate
inside the kernel. -/
def listLe : List Char → List Char → Bool
  | [], _ => true
  | _ :: _, [] => false
  | a :: as, b :: bs => if a < b then true else if b < a then false else listLe as bs

/-- Python string `<=` (code-point lexicographic). -/
def strLe (a b : String) : Bool := listLe a.data b.data

theorem listLe_cons_iff {a b : Char} {as bs : List Char} :
    listLe (a :: as) (b :: bs) = true ↔ a < b ∨ (a = b ∧ listLe as bs = true) := by
  by_cases h1 : a < b
  · simp [listLe, h1]
  · by_cases h2 : b < a
    · have hne : a ≠ b := ne_of_gt h2
      simp [listLe, h1, h2, hne]
    · have heq : a = b := le_antisymm (not_lt.mp h2) (not_lt.mp h1)
      simp [listLe, h1, h2, heq]

theorem listLe_refl (l : List Char) : listLe l l = true := by
  induction l with
  | nil => rfl
  | cons a as ih => exact listLe_cons_iff.mpr (Or.inr ⟨rfl, ih⟩)

theorem listLe_trans : ∀ {l m n : List Char}, listLe l m = true → listLe m n = true →
    listLe l n = true := by
  intro l
  induction l with
  | nil => intro m n _ _; rfl
  | cons a as ih =>
    intro m n h1 h2
    cases m with
    | nil => simp [listLe] at h1
    | cons b bs =>
      cases n with
      | nil => simp [listLe] at h2
      | cons c cs =>
        rcases listLe_cons_iff.mp h1 with hab | ⟨hab, htl1⟩ <;>
          rcases listLe_cons_iff.mp h2 with hbc | ⟨hbc, htl2⟩
        · exact listLe_cons_iff.mpr (Or.inl (lt_trans hab hbc))
        · exact listLe_cons_iff.mpr (Or.inl (hbc ▸ hab))
        · exact listLe_cons_iff.mpr (Or.inl (hab ▸ hbc))
        · exact listLe_cons_iff.mpr (Or.inr ⟨hab.trans hbc, ih htl1 htl2⟩)

theorem listLe_total (l m : List Char) : listLe l m = true ∨ listLe m l = true := by
  induction l generalizing m with
  | nil => exact Or.inl rfl
  | cons a as ih =>
    cases m with
    | nil => exact Or.inr rfl
    | cons b bs =>
      rcases lt_trichotomy a b with h | h | h
      · exact Or.inl (listLe_cons_iff.mpr (Or.inl h))
      · rcases ih bs with h' | h'
        · exact Or.inl (listLe_cons_iff.mpr (Or.inr ⟨h, h'⟩))
        · exact Or.inr (listLe_cons_iff.mpr (Or.inr ⟨h.symm, h'⟩))
      · exact Or.inr (listLe_cons_iff.mpr (Or.inl h))

theorem listLe_antisymm : ∀ {l m : List Char}, listLe l m = true → listLe m l = true →
    l = m := by
  intro l
  induction l with
  | nil =>
    intro m _ h2
    cases m with
    | nil => rfl
    | cons b bs => simp [listLe] at h2
  | cons a as ih =>
    intro m h1 h2
    cases m with
    | nil => simp [listLe] at h1
    | cons b bs =>
      rcases listLe_cons_iff.mp h1 with hab | ⟨hab, htl1⟩ <;>
        rcases listLe_cons_iff.mp h2 with hba | ⟨hba, htl2⟩
      · exact absurd hba (lt_asymm hab)
      · exact absurd (hba ▸ hab) (lt_irrefl b)
      · exact absurd (hab ▸ hba) (lt_irrefl a)
      · rw [hab, ih htl1 htl2]

theorem strLe_of_not_strLe {a b : String} (h : ¬ strLe a b = true) : strLe b a = true := by
  rcases listLe_total a.data b.data with h' | h'
  · exact absurd h' h
  · exact h'

theorem strLe_trans {a b c : String} (h1 : strLe a b = true) (h2 : strLe b c = true) :
    strLe a c = true := listLe_trans h1 h2

theorem strLe_antisymm {a b : String} (h1 : strLe a b = true) (h2 : strLe b a = true) :
    a = b := congrArg String.mk (listLe_antisymm h1 h2)

/-- Stable insertion (by key) used to sort the bindings of an object the way
`sort_keys=True` does. -/
def insertKv (a : String × J) : List (String × J) → List (String × J)
  | [] => [a]
  | b :: bs => if strLe a.1 b.1 then a :: b :: bs else b :: insertKv a bs

def sortKvs (l : List (String × J)) : List (String × J) := l.foldr insertKv []

theorem insertKv_perm (a : String × J) (l : List (String × J)) :
    List.Perm (insertKv a l) (a :: l) := by
  induction l with
  | nil => rfl
  | cons b bs ih =>
    by_cases hle : strLe a.1 b.1 = true
    · simp [insertKv, hle]
    · simp only [insertKv, hle, if_false]
      exact ((ih.cons b).trans (List.Perm.swap a b bs))

theorem sortKvs_perm (l : List (String × J)) : List.Perm (sortKvs l) l := by
  induction l with
  | nil => rfl
  | cons a bs ih =>
    show List.Perm (insertKv a (sortKvs bs)) (a :: bs)
    exact (insertKv_perm a (sortKvs bs)).trans (ih.cons a)

theorem insertKv_sorted {l : List (String × J)}
    (hl : l.Pairwise (fun x y => strLe x.1 y.1 = true)) (a : String × J) :
    (insertKv a l).Pairwise (fun x y => strLe x.1 y.1 = true) := by
  induction l with
  | nil => simp [insertKv]
  | cons b bs ih =>
    by_cases hle : strLe a.1 b.1 = true
    · rw [insertKv, if_pos hle]
      refine List.Pairwise.cons ?_ hl
      intro y hy
      rcases List.mem_cons.mp hy with hy | hy
      · rw [hy]; exact hle
      · exact strLe_trans hle ((List.pairwise_cons.mp hl).1 y hy)
    · rw [insertKv, if_neg hle]
      have hb := List.pairwise_cons.mp hl
      refine List.Pairwise.cons ?_ (ih hb.2)
      intro y hy
      have hy' := (insertKv_perm a bs).mem_iff.mp hy
      rcases List.mem_cons.mp hy' with hy' | hy'
      · rw [hy']; exact strLe_of_not_strLe hle
      · exact hb.1 y hy'

theorem sortKvs_sorted (l : List (String × J)) :
    (sortKvs l).Pairwise (fun x y => strLe x.1 y.1 = true) := by
  induction l with
  | nil => exact List.Pairwise.nil
  | cons a bs ih => exact insertKv_sorted ih a

/-- Two key-sorted association lists that are permutations of each other and
have duplicate-free keys are equal. -/
theorem eq_of_sorted_perm_nodup :
    ∀ {l1 l2 : List (String × J)}, l1.Pairwise (fun x y => strLe x.1 y.1 = true) →
      l2.Pairwise (fun x y => strLe x.1 y.1 = true) → List.Perm l1 l2 →
      (l1.map Prod.fst).Nodup → l1 = l2 := by
  intro l1
  induction l1 with
  | nil => intro l2 _ _ hperm _; exact List.Perm.nil_eq hperm
  | cons a t1 ih =>
    intro l2 h1 h2 hperm hnd
    cases l2 with
    | nil => exact absurd hperm.symm (by simp)
    | cons b t2 =>
      have hab : a = b := by
        by_contra hne
        have ha2 : a ∈ b :: t2 := hperm.mem_iff.mp (by simp)
        have hb1 : b ∈ a :: t1 := hperm.mem_iff.mpr (by simp)
        have ha2' : a ∈ t2 := by
          rcases List.mem_cons.mp ha2 with h | h
          · exact absurd h hne
          · exact h
        have hb1' : b ∈ t1 := by
          rcases List.mem_cons.mp hb1 with h | h
          · exact absurd h.symm hne
          · exact h
        have hle1 : strLe a.1 b.1 = true := (List.pairwise_cons.mp h1).1 b hb1'
        have hle2 : strLe b.1 a.1 = true := (List.pairwise_cons.mp h2).1 a ha2'
        have hkey : a.1 = b.1 := strLe_antisymm hle1 hle2
        have : a.1 ∈ t1.map Prod.fst := by
          rw [hkey]
          exact List.mem_map_of_mem Prod.fst hb1'
        exact (List.nodup_cons.mp hnd).1 this
      subst hab
      have hperm' : List.Perm t1 t2 := hperm.cons_inv
      have := ih (List.pairwise_cons.mp h1).2 (List.pairwise_cons.mp h2).2 hperm'
        (List.nodup_cons.mp hnd).2
      rw [this]

mutual
/-- Recursive key-sorting: the object layout that `sort_keys=True`
serializes. -/
def canonJ : J → J
  | .null => .null
  | .bool b => .bool b
  | .num n => .num n
  | .str s => .str s
  | .arr xs => .arr (canonList xs)
  | .obj kvs => .obj (sortKvs (canonKvs kvs))
def canonList : List J → List J
  | [] => []
  | x :: xs => canonJ x :: canonList xs
def canonKvs : List (String × J) → List (String × J)
  | [] => []
  | (k, v) :: kvs => (k, canonJ v) :: canonKvs kvs
end

theorem canonKvs_eq_map (l : List (String × J)) :
    canonKvs l = l.map (fun kv => (kv.1, canonJ kv.2)) := by
  induction l with
  | nil => rfl
  | cons kv rest ih =>
    obtain ⟨k, v⟩ := kv
    rw [canonKvs, ih]
    rfl

end Pulse

namespace Pulse

/-- One hex digit (lowercase), as `json.dumps` prints in `\uXXXX` escapes. -/
def hexChar (n : Nat) : Char :=
  if n < 10 then Char.ofNat (48 + n) else Char.ofNat (87 + n)

/-- Four hex digits of a code unit. -/
def hex4 (n : Nat) : String :=
  String.mk [hexChar (n / 4096 % 16), hexChar (n / 256 % 16), hexChar (n / 16 % 16),
    hexChar (n % 16)]

/-- `json.dumps` (ensure_ascii) escaping of one character: quote, backslash
and the C0 short escapes; other control characters and everything outside
printable ASCII as `\uXXXX` (astral code points as a surrogate pair). -/
def escChar (c : Char) : String :=
  if c = '"' then "\\\""
  else if c = '\\' then "\\\\"
  else if c = '\n' then "\\n"
  else if c = '\r' then "\\r"
  else if c = '\t' then "\\t"
  else if c = '\x08' then "\\b"
  else if c = '\x0c' then "\\f"
  else if c.toNat < 0x20 then "\\u" ++ hex4 c.toNat
  else if c.toNat < 0x7f then String.singleton c
  else if c.toNat ≤ 0xffff then "\\u" ++ hex4 c.toNat
  else
    "\\u" ++ hex4 (0xd800 + (c.toNat - 0x10000) / 0x400) ++
      "\\u" ++ hex4 (0xdc00 + (c.toNat - 0x10000) % 0x400)

/-- JSON string-body escaping. -/
def escape : List Char → String
  | [] => ""
  | c :: cs => escChar c ++ escape cs

mutual
/-- Serialization of an already key-sorted value with separators
`(",", ":")`; `json.dumps(..., sort_keys=True)` is `jdumpRaw ∘ canonJ`. -/
def jdumpRaw : J → String
  | .null => "null"
  | .bool true => "true"
  | .bool false => "false"
  | .num n => toString n
  | .str s => "\"" ++ escape s.toList ++ "\""
  | .arr xs => "[" ++ jdumpArr xs ++ "]"
  | .obj kvs => "\x7b" ++ jdumpObj kvs ++ "\x7d"
def jdumpArr : List J → String
  | [] => ""
  | [x] => jdumpRaw x
  | x :: y :: xs => jdumpRaw x ++ "," ++ jdumpArr (y :: xs)
def jdumpObj : List (String × J) → String
  | [] => ""
  | [kv] => "\"" ++ escape kv.1.toList ++ "\":" ++ jdumpRaw kv.2
  | kv :: kv2 :: kvs =>
    "\"" ++ escape kv.1.toList ++ "\":" ++ jdumpRaw kv.2 ++ "," ++ jdumpObj (kv2 :: kvs)
end

/-- `json.dumps(j, sort_keys=True, separators=(",", ":"))`. -/
def jdump (j : J) : String := jdumpRaw (canonJ j)

end Pulse

example : Pulse.jdump (Pulse.J.obj [("b", .num 1), ("a", .null)]) =
    "\x7b\"a\":null,\"b\":1\x7d" := by rfl
example : Pulse.strLe "a" "b" = true := by decide

namespace Pulse

/-- One serialized `"key":value` binding. -/
def jentry (kv : String × J) : String := "\"" ++ escape kv.1.toList ++ "\":" ++ jdumpRaw kv.2

theorem insertKv_pair {x y : String × J} (hk : x.1 = y.1) (L : List (String × J)) :
    ∃ P Q, insertKv x L = P ++ x :: Q ∧ insertKv y L = P ++ y :: Q := by
  induction L with
  | nil => exact ⟨[], [], rfl, rfl⟩
  | cons b bs ih =>
    by_cases hle : strLe x.1 b.1 = true
    · have hle' : strLe y.1 b.1 = true := by rw [← hk]; exact hle
      exact ⟨[], b :: bs, by simp [insertKv, hle], by simp [insertKv, hle']⟩
    · obtain ⟨P, Q, h1, h2⟩ := ih
      have hle' : ¬ strLe y.1 b.1 = true := by rw [← hk]; exact hle
      refine ⟨b :: P, Q, ?_, ?_⟩
      · rw [insertKv, if_neg hle, h1]
        rfl
      · rw [insertKv, if_neg hle', h2]
        rfl

theorem insertKv_diffOne {x y : String × J} (hk : x.1 = y.1) (a : String × J) :
    ∀ (P : List (String × J)) (Q : List (String × J)),
      ∃ P' Q', insertKv a (P ++ x :: Q) = P' ++ x :: Q' ∧
        insertKv a (P ++ y :: Q) = P' ++ y :: Q' := by
  intro P
  induction P with
  | nil =>
    intro Q
    by_cases hle : strLe a.1 x.1 = true
    · have hle' : strLe a.1 y.1 = true := by rw [← hk]; exact hle
      exact ⟨[a], Q, by simp [insertKv, hle], by simp [insertKv, hle']⟩
    · have hle' : ¬ strLe a.1 y.1 = true := by rw [← hk]; exact hle
      exact ⟨[], insertKv a Q, by simp [insertKv, hle], by simp [insertKv, hle']⟩
  | cons b P' ih =>
    intro Q
    by_cases hle : strLe a.1 b.1 = true
    · exact ⟨a :: b :: P', Q, by simp [insertKv, hle], by simp [insertKv, hle]⟩
    · obtain ⟨P'', Q'', h1, h2⟩ := ih Q
      exact ⟨b :: P'', Q'', by simp [insertKv, hle, h1], by simp [insertKv, hle, h2]⟩

theorem sortKvs_diffOne {x y : String × J} (hk : x.1 = y.1)
    (C D : List (String × J)) :
    ∃ P Q, sortKvs (C ++ x :: D) = P ++ x :: Q ∧ sortKvs (C ++ y :: D) = P ++ y :: Q := by
  induction C with
  | nil => exact insertKv_pair hk (sortKvs D)
  | cons c C' ih =>
    obtain ⟨P, Q, h1, h2⟩ := ih
    obtain ⟨P', Q', h1', h2'⟩ := insertKv_diffOne hk c P Q
    refine ⟨P', Q', ?_, ?_⟩
    · show insertKv c (sortKvs (C' ++ x :: D)) = _
      rw [h1, h1']
    · show insertKv c (sortKvs (C' ++ y :: D)) = _
      rw [h2, h2']

theorem jentry_eq_of_cancel {x y : String × J} (hk : x.1 = y.1)
    (h : jentry x = jentry y) : jdumpRaw x.2 = jdumpRaw y.2 := by
  have hx : (jentry x).data = ("\"" ++ escape x.1.toList ++ "\":").data ++ (jdumpRaw x.2).data :=
    rfl
  have hy : (jentry y).data = ("\"" ++ escape y.1.toList ++ "\":").data ++ (jdumpRaw y.2).data :=
    rfl
  have hesc : escape y.1.toList = escape x.1.toList := by rw [hk]
  have hd := congrArg String.data h
  rw [hx, hy, hesc] at hd
  exact congrArg String.mk (List.append_cancel_left hd)

theorem jentry_ne {x y : String × J} (hk : x.1 = y.1)
    (hv : jdumpRaw x.2 ≠ jdumpRaw y.2) : jentry x ≠ jentry y :=
  fun h => hv (jentry_eq_of_cancel hk h)

theorem jdumpObj_diff :
    ∀ (P : List (String × J)) {x y : String × J} (Q : List (String × J)),
      x.1 = y.1 → jdumpRaw x.2 ≠ jdumpRaw y.2 →
      jdumpObj (P ++ x :: Q) ≠ jdumpObj (P ++ y :: Q) := by
  intro P
  induction P with
  | nil =>
    intro x y Q hk hv h
    simp only [List.nil_append] at h
    cases Q with
    | nil => exact jentry_ne hk hv h
    | cons q qs =>
      apply jentry_ne hk hv
      have hd := congrArg String.data h
      have hx : (jdumpObj (x :: q :: qs)).data =
          ((jentry x).data ++ (",").data) ++ (jdumpObj (q :: qs)).data := rfl
      have hy : (jdumpObj (y :: q :: qs)).data =
          ((jentry y).data ++ (",").data) ++ (jdumpObj (q :: qs)).data := rfl
      rw [hx, hy] at hd
      have hd2 := List.append_cancel_right hd
      exact congrArg String.mk (List.append_cancel_right hd2)
  | cons p P' ih =>
    intro x y Q hk hv h
    apply ih Q hk hv
    cases hL1 : P' ++ x :: Q with
    | nil => exact absurd hL1 (by simp)
    | cons m ms =>
      cases hL2 : P' ++ y :: Q with
      | nil => exact absurd hL2 (by simp)
      | cons m2 ms2 =>
        simp only [List.cons_append] at h
        rw [hL1, hL2] at h
        have hd := congrArg String.data h
        have hx : (jdumpObj (p :: m :: ms)).data =
            ((jentry p).data ++ (",").data) ++ (jdumpObj (m :: ms)).data := rfl
        have hy : (jdumpObj (p :: m2 :: ms2)).data =
            ((jentry p).data ++ (",").data) ++ (jdumpObj (m2 :: ms2)).data := rfl
        rw [hx, hy] at hd
        exact congrArg String.mk (List.append_cancel_left hd)

/-- Changing the value stored at one key of an object (all other bindings
identical) changes its canonical serialization, provided the value's own
serialization changes. -/
theorem jdump_obj_update_ne {C D : List (String × J)} {k : String} {v v' : J}
    (hv : jdump v ≠ jdump v') :
    jdump (J.obj (C ++ (k, v) :: D)) ≠ jdump (J.obj (C ++ (k, v') :: D)) := by
  intro h
  obtain ⟨P, Q, hP1, hP2⟩ :=
    sortKvs_diffOne (x := (k, canonJ v)) (y := (k, canonJ v')) rfl (canonKvs C) (canonKvs D)
  have hsplit1 : canonKvs (C ++ (k, v) :: D) = canonKvs C ++ (k, canonJ v) :: canonKvs D := by
    simp [canonKvs_eq_map]
  have hsplit2 : canonKvs (C ++ (k, v') :: D) = canonKvs C ++ (k, canonJ v') :: canonKvs D := by
    simp [canonKvs_eq_map]
  have hx : jdump (J.obj (C ++ (k, v) :: D)) =
      "\x7b" ++ jdumpObj (P ++ (k, canonJ v) :: Q) ++ "\x7d" := by
    show "\x7b" ++ jdumpObj (sortKvs (canonKvs (C ++ (k, v) :: D))) ++ "\x7d" = _
    rw [hsplit1, hP1]
  have hy : jdump (J.obj (C ++ (k, v') :: D)) =
      "\x7b" ++ jdumpObj (P ++ (k, canonJ v') :: Q) ++ "\x7d" := by
    show "\x7b" ++ jdumpObj (sortKvs (canonKvs (C ++ (k, v') :: D))) ++ "\x7d" = _
    rw [hsplit2, hP2]
  rw [hx, hy] at h
  have hd := congrArg String.data h
  have hshape1 : ("\x7b" ++ jdumpObj (P ++ (k, canonJ v) :: Q) ++ "\x7d").data =
      (("\x7b").data ++ (jdumpObj (P ++ (k, canonJ v) :: Q)).data) ++ ("\x7d").data := rfl
  have hshape2 : ("\x7b" ++ jdumpObj (P ++ (k, canonJ v') :: Q) ++ "\x7d").data =
      (("\x7b").data ++ (jdumpObj (P ++ (k, canonJ v') :: Q)).data) ++ ("\x7d").data := rfl
  rw [hshape1, hshape2] at hd
  have hd2 := List.append_cancel_right hd
  have hd3 := List.append_cancel_left hd2
  exact jdumpObj_diff P (x := (k, canonJ v)) (y := (k, canonJ v')) Q rfl hv
    (congrArg String.mk hd3)

/-- A character that `json.dumps` serializes as itself: printable ASCII
other than the quote and the backslash. -/
def safeChar (c : Char) : Bool :=
  decide (0x20 ≤ c.toNat) && decide (c.toNat < 0x7f) && !(decide (c = '"')) &&
    !(decide (c = '\\'))

def safeStr (s : String) : Bool := s.data.all safeChar

theorem escChar_safe {c : Char} (h : safeChar c = true) : escChar c = String.singleton c := by
  simp only [safeChar, Bool.and_eq_true, Bool.not_eq_true', decide_eq_false_iff_not,
    decide_eq_true_eq] at h
  obtain ⟨⟨⟨h1, h2⟩, hq⟩, hbs⟩ := h
  have hn : c ≠ '\n' := fun hc => absurd h1 (by rw [hc]; decide)
  have hr : c ≠ '\r' := fun hc => absurd h1 (by rw [hc]; decide)
  have ht : c ≠ '\t' := fun hc => absurd h1 (by rw [hc]; decide)
  have hb : c ≠ '\x08' := fun hc => absurd h1 (by rw [hc]; decide)
  have hf : c ≠ '\x0c' := fun hc => absurd h1 (by rw [hc]; decide)
  unfold escChar
  rw [if_neg hq, if_neg hbs, if_neg hn, if_neg hr, if_neg ht, if_neg hb, if_neg hf,
    if_neg (not_lt.mpr h1), if_pos h2]

theorem escape_safe {l : List Char} (h : l.all safeChar = true) : escape l = l.asString := by
  induction l with
  | nil => rfl
  | cons c cs ih =>
    simp only [List.all_cons, Bool.and_eq_true] at h
    rw [escape, escChar_safe h.1, ih h.2]
    exact congrArg String.mk rfl

/-- Distinct escape-free strings serialize to distinct JSON strings. -/
theorem jdump_str_ne {s s' : String} (hs : safeStr s = true) (hs' : safeStr s' = true)
    (hne : s ≠ s') : jdump (J.str s) ≠ jdump (J.str s') := by
  intro h
  apply hne
  have hx : jdump (J.str s) = "\"" ++ s.data.asString ++ "\"" := by
    show "\"" ++ escape s.data ++ "\"" = _
    rw [escape_safe hs]
  have hy : jdump (J.str s') = "\"" ++ s'.data.asString ++ "\"" := by
    show "\"" ++ escape s'.data ++ "\"" = _
    rw [escape_safe hs']
  rw [hx, hy] at h
  have hd := congrArg String.data h
  have hshape1 : ("\"" ++ s.data.asString ++ "\"").data =
      (("\"").data ++ s.data) ++ ("\"").data := rfl
  have hshape2 : ("\"" ++ s'.data.asString ++ "\"").data =
      (("\"").data ++ s'.data) ++ ("\"").data := rfl
  rw [hshape1, hshape2] at hd
  exact congrArg String.mk (List.append_cancel_left (List.append_cancel_right hd))

end Pulse

namespace Pulse

/-! ## Endpoint derivation (registry.py, refresh, lines 60-103) -/

/-- Python `s.startswith(q)` (character-level; defined on the character
data so it evaluates inside the kernel). -/
def pyStartswith (s q : String) : Bool := q.data.isPrefixOf s.data

/-- Python `s.upper()` (ASCII case mapping; only ASCII HTTP method names
are relevant here). -/
def pyToUpper (s : String) : String := (s.data.map Char.toUpper).asString

/-- Python `s.lower()` (ASCII case mapping). -/
def pyToLower (s : String) : String := (s.data.map Char.toLower).asString

/-- registry.py line 12. -/
def ALLOWED_METHODS : List String := ["GET", "POST", "PUT", "PATCH", "DELETE", "OPTIONS", "HEAD"]

/-- `x.get(key, [])` read as a list (well-formed schemas store arrays here;
a non-array value would make the Python `list.extend` call raise). -/
def paramsOf (j : J) (key : String) : List J :=
  match getKey j key with
  | some (.arr xs) => xs
  | _ => []

/-- `param.get("in") == "path" and param.get("required", False)`
(required is used for its truthiness). -/
def paramIsPathRequired (p : J) : Bool :=
  (match getKey p "in" with
   | some (.str s) => decide (s = "path")
   | _ => false) &&
  (match getKey p "required" with
   | some v => truthy v
   | none => false)

/-- `any(... for param in parameters)` over the merged parameter list. -/
def has_path_params_of (params : List J) : Bool := params.any paramIsPathRequired

/-- `bool(operation.get("requestBody"))`. -/
def has_request_body_of (op : J) : Bool :=
  match getKey op "requestBody" with
  | some v => truthy v
  | none => false

/-- Python `x or y` on JSON values (returns `y` when `x` is falsy). -/
def pyOr (a b : J) : J := if truthy a then a else b

/-- `operation.get("summary") or operation.get("operationId")`. -/
def summary_of (op : J) : J :=
  pyOr ((getKey op "summary").getD .null) ((getKey op "operationId").getD .null)

/-- `operation.get("tags", [])`. -/
def tags_of (op : J) : J := (getKey op "tags").getD (.arr [])

/-- The EndpointInfo constructed in the loop body (lines 89-98). -/
def mkEndpoint (path method_upper : String) (commonParams : List J) (op : J) : EndpointInfo :=
  { id := method_upper ++ " " ++ path,
    method := method_upper,
    path := path,
    summary := summary_of op,
    tags := tags_of op,
    requires_input :=
      has_path_params_of (commonParams ++ paramsOf op "parameters") || has_request_body_of op,
    has_path_params := has_path_params_of (commonParams ++ paramsOf op "parameters"),
    has_request_body := has_request_body_of op }

/-- The three `continue`s of the method loop (lines 70-77): skip the
"parameters" key, skip unsupported methods, skip non-dict operations. -/
def deriveOp (commonParams : List J) (path : String) (mv : String × J) :
    Option EndpointInfo :=
  if pyToLower mv.1 = "parameters" then none
  else if pyToUpper mv.1 ∉ ALLOWED_METHODS then none
  else
    match mv.2 with
    | .obj _ => some (mkEndpoint path (pyToUpper mv.1) commonParams mv.2)
    | _ => none

/-- `any(path.startswith(prefix) for prefix in self._exclude_prefixes)`. -/
def isExcluded (pfxs : List String) (path : String) : Bool :=
  pfxs.any (fun q => pyStartswith path q)

/-- One iteration of the path loop (lines 61-99): excluded paths and
non-dict path items yield nothing. -/
def derivePath (pfxs : List String) (pv : String × J) : List EndpointInfo :=
  if isExcluded pfxs pv.1 then []
  else
    match pv.2 with
    | .obj opkvs => opkvs.filterMap (deriveOp (paramsOf pv.2 "parameters") pv.1)
    | _ => []

def deriveAll (pfxs : List String) : List (String × J) → List EndpointInfo
  | [] => []
  | pv :: rest => derivePath pfxs pv ++ deriveAll pfxs rest

/-- `(e.path, e.method)` tuple comparison used by the final sort
(line 101). -/
def epLe (a b : EndpointInfo) : Bool :=
  (strLe a.path b.path && !(decide (a.path = b.path))) ||
    (decide (a.path = b.path) && strLe a.method b.method)

def insertEp (a : EndpointInfo) : List EndpointInfo → List EndpointInfo
  | [] => [a]
  | b :: bs => if epLe a b then a :: b :: bs else b :: insertEp a bs

/-- `endpoints.sort(key=lambda e: (e.path, e.method))` (stable). -/
def sortEps (l : List EndpointInfo) : List EndpointInfo := l.foldr insertEp []

/-- The full derivation of refresh for a given `paths` value. -/
def deriveEndpoints (pfxs : List String) (paths : J) : List EndpointInfo :=
  sortEps
    (match paths with
     | .obj pkvs => deriveAll pfxs pkvs
     | _ => [])

/-- `schema.get("paths", {})` (line 52). -/
def pathsOf (schema : J) : J := (getKey schema "paths").getD (.obj [])

/-- PulseEndpointRegistry's mutable state (`_endpoints`, `_schema_hash`). -/
structure RegistryState where
  endpoints : List EndpointInfo := []
  schema_hash : Option String := none

/-- PulseEndpointRegistry.refresh (lines 49-103).  `h` abstracts
`hashlib.sha256(...).hexdigest()` as a function of the canonical
serialization `jdump` (injectivity — absence of collisions — is a
hypothesis of the theorems that need it).  The returned Bool instruments
whether the derivation branch ran (`false` = early return on hash
match). -/
def refresh (h : String → String) (pfxs : List String) (st : RegistryState) (schema : J) :
    RegistryState × Bool :=
  let schema_hash := h (jdump (pathsOf schema))
  if some schema_hash = st.schema_hash then (st, false)
  else ({ endpoints := deriveEndpoints pfxs (pathsOf schema), schema_hash := some schema_hash },
    true)

/-- PulseEndpointRegistry.list_endpoints (lines 105-108): refresh, then the
cached list. -/
def list_endpoints (h : String → String) (pfxs : List String) (st : RegistryState)
    (schema : J) : RegistryState × List EndpointInfo :=
  let st' := (refresh h pfxs st schema).1
  (st', st'.endpoints)

/-- PulseEndpointRegistry.auto_probe_targets (lines 114-116). -/
def auto_probe_targets (h : String → String) (pfxs : List String) (st : RegistryState)
    (schema : J) : RegistryState × List EndpointInfo :=
  let p := list_endpoints h pfxs st schema
  (p.1, p.2.filter (fun e => !e.requires_input))

/-! ## Exclusion prefixes (registry.py constructor, add_pulse) -/

def insertStr (a : String) : List String → List String
  | [] => [a]
  | b :: bs => if strLe a b then a :: b :: bs else b :: insertStr a bs

/-- Python `sorted` on strings. -/
def sortStrings (l : List String) : List String := l.foldr insertStr []

/-- `prefix if prefix.startswith('/') else f'/{prefix}'` (line 45). -/
def normalizePfx (p : String) : String := if pyStartswith p "/" then p else "/" ++ p

/-- The registry constructor (lines 42-47): the default management prefix
plus the normalized caller-supplied ones, as a deduplicated sorted tuple
(Python set semantics: first occurrence kept). -/
def mkExcludePfxs (exclude : List String) : List String :=
  sortStrings (("/health/pulse" :: exclude.map normalizePfx).dedup)

/-- Python `s.rstrip('/')`. -/
def rstripSlash (s : String) : String :=
  (s.data.reverse.dropWhile (fun c => c = '/')).reverse.asString

/-- add_pulse (fastapi_pulse/__init__.py, lines 69-70): the dashboard path,
slash-prefixed, with trailing slashes stripped, empty falling back to
"/". -/
def dashboardPfx (p : String) : String :=
  let q := if pyStartswith p "/" then p else "/" ++ p
  let r := rstripSlash q
  if r = "" then "/" else r

/-- The exclusion prefixes the registry ends up with when `add_pulse` is
called with the given dashboard path (lines 71-77 pass
`('/health/pulse', dashboard_prefix)` to the registry constructor). -/
def pulseExcludePfxs (dashboard_path : String) : List String :=
  mkExcludePfxs ["/health/pulse", dashboardPfx dashboard_path]

end Pulse

namespace Pulse

theorem insertEp_perm (a : EndpointInfo) (l : List EndpointInfo) :
    List.Perm (insertEp a l) (a :: l) := by
  induction l with
  | nil => rfl
  | cons b bs ih =>
    by_cases hle : epLe a b = true
    · simp [insertEp, hle]
    · simp only [insertEp, hle, if_false]
      exact ((ih.cons b).trans (List.Perm.swap a b bs))

theorem sortEps_perm (l : List EndpointInfo) : List.Perm (sortEps l) l := by
  induction l with
  | nil => rfl
  | cons a bs ih =>
    show List.Perm (insertEp a (sortEps bs)) (a :: bs)
    exact (insertEp_perm a (sortEps bs)).trans (ih.cons a)

theorem mem_sortEps {e : EndpointInfo} {l : List EndpointInfo} (h : e ∈ sortEps l) :
    e ∈ l := (sortEps_perm l).mem_iff.mp h

theorem deriveAll_mem {pfxs : List String} {kvs : List (String × J)} {e : EndpointInfo}
    (h : e ∈ deriveAll pfxs kvs) : ∃ pv ∈ kvs, e ∈ derivePath pfxs pv := by
  induction kvs with
  | nil => simp [deriveAll] at h
  | cons pv rest ih =>
    rw [deriveAll] at h
    rcases List.mem_append.mp h with h | h
    · exact ⟨pv, by simp, h⟩
    · obtain ⟨pv', hpv', he⟩ := ih h
      exact ⟨pv', by simp [hpv'], he⟩

/-- `in: path`-required parameter well-formedness: a present `required`
field is a JSON boolean (as the OpenAPI format prescribes). -/
def paramRequiredWf (q : J) : Bool :=
  match getKey q "required" with
  | none => true
  | some (.bool _) => true
  | _ => false

/-- requestBody well-formedness: a declared request body is a truthy value
(a non-empty object, as generated OpenAPI request bodies are). -/
def requestBodyWf (op : J) : Bool :=
  match getKey op "requestBody" with
  | none => true
  | some v => truthy v

/-- C8: a descriptor is derived only for operations whose path matches no
configured management prefix and whose method is supported (after
uppercasing; unknown methods are ignored), and `requires_input` is the
disjunction of the two flags; `has_path_params` holds iff some parameter of
the merged (path-level + operation-level) list has `in: "path"` and
`required: true` (for boolean-valued `required` fields, which is what the
code's truthiness test means on well-formed schemas); `has_request_body`
holds iff the operation declares a (truthy) request body. -/
theorem C8_derivation_rule :
    (∀ (pfxs : List String) (paths : J), ∀ e ∈ deriveEndpoints pfxs paths,
      (∀ q ∈ pfxs, pyStartswith e.path q = false) ∧
      e.method ∈ ALLOWED_METHODS ∧
      e.requires_input = (e.has_path_params || e.has_request_body)) ∧
    (∀ params : List J, (∀ q ∈ params, paramRequiredWf q = true) →
      (has_path_params_of params = true ↔
        ∃ q ∈ params, getKey q "in" = some (J.str "path") ∧
          getKey q "required" = some (J.bool true))) ∧
    (∀ op : J, requestBodyWf op = true →
      (has_request_body_of op = true ↔ (getKey op "requestBody").isSome = true)) := by
  refine ⟨?_, ?_, ?_⟩
  · intro pfxs paths e he
    have he' : e ∈ (match paths with
        | J.obj pkvs => deriveAll pfxs pkvs
        | _ => ([] : List EndpointInfo)) := mem_sortEps he
    cases paths with
    | obj pkvs =>
      obtain ⟨pv, hpv, hep⟩ := deriveAll_mem he'
      rw [derivePath] at hep
      by_cases hex : isExcluded pfxs pv.1 = true
      · rw [if_pos hex] at hep
        simp at hep
      · rw [if_neg hex] at hep
        cases hpv2 : pv.2 with
        | obj opkvs =>
          rw [hpv2] at hep
          obtain ⟨mv, hmv, hsome⟩ := List.mem_filterMap.mp hep
          by_cases h1 : pyToLower mv.1 = "parameters"
          · rw [deriveOp, if_pos h1] at hsome
            cases hsome
          · by_cases h2 : pyToUpper mv.1 ∉ ALLOWED_METHODS
            · rw [deriveOp, if_neg h1, if_pos h2] at hsome
              cases hsome
            · rw [deriveOp, if_neg h1, if_neg h2] at hsome
              cases hmv2 : mv.2 with
              | obj okvs =>
                rw [hmv2] at hsome
                injection hsome with he2
                subst he2
                refine ⟨?_, not_not.mp h2, rfl⟩
                intro q hq
                have hex' : isExcluded pfxs pv.1 = false := Bool.eq_false_iff.mpr hex
                rw [isExcluded] at hex'
                have hall := List.any_eq_false.mp hex' q hq
                exact Bool.eq_false_iff.mpr hall
              | null => rw [hmv2] at hsome; cases hsome
              | bool b => rw [hmv2] at hsome; cases hsome
              | num n => rw [hmv2] at hsome; cases hsome
              | str s => rw [hmv2] at hsome; cases hsome
              | arr xs => rw [hmv2] at hsome; cases hsome
        | null => rw [hpv2] at hep; simp at hep
        | bool b => rw [hpv2] at hep; simp at hep
        | num n => rw [hpv2] at hep; simp at hep
        | str s => rw [hpv2] at hep; simp at hep
        | arr xs => rw [hpv2] at hep; simp at hep
    | null => simp at he'
    | bool b => simp at he'
    | num n => simp at he'
    | str s => simp at he'
    | arr xs => simp at he'
  · intro params hwf
    rw [has_path_params_of, List.any_eq_true]
    constructor
    · rintro ⟨q, hq, hpred⟩
      rw [paramIsPathRequired, Bool.and_eq_true] at hpred
      obtain ⟨hin, hreq⟩ := hpred
      refine ⟨q, hq, ?_, ?_⟩
      · cases hin' : getKey q "in" with
        | none => rw [hin'] at hin; cases hin
        | some v =>
          rw [hin'] at hin
          cases v with
          | str s =>
            simp only [decide_eq_true_eq] at hin
            rw [hin]
          | null => cases hin
          | bool b => cases hin
          | num n => cases hin
          | arr xs => cases hin
          | obj kvs => cases hin
      · have hwfq := hwf q hq
        rw [paramRequiredWf] at hwfq
        cases hreq' : getKey q "required" with
        | none => rw [hreq'] at hreq; cases hreq
        | some v =>
          rw [hreq'] at hreq hwfq
          cases v with
          | bool b =>
            have hb : b = true := by simpa [truthy] using hreq
            rw [hb]
          | null => cases hwfq
          | num n => cases hwfq
          | str s => cases hwfq
          | arr xs => cases hwfq
          | obj kvs => cases hwfq
    · rintro ⟨q, hq, hin, hreq⟩
      refine ⟨q, hq, ?_⟩
      rw [paramIsPathRequired, hin, hreq]
      decide
  · intro op hwf
    cases hrb : getKey op "requestBody" with
    | none =>
      rw [has_request_body_of, hrb]
      simp
    | some v =>
      rw [requestBodyWf, hrb] at hwf
      have hv : truthy v = true := hwf
      rw [has_request_body_of, hrb]
      simp [hv]

theorem C8_derivation_rule_witness :
    has_path_params_of [J.obj [("in", J.str "path"), ("required", J.bool true)]] = true ∧
    has_request_body_of (J.obj [("requestBody", J.obj [("content", J.null)])]) = true ∧
    (∀ q ∈ (["/health"] : List String),
      pyStartswith (mkEndpoint "/items" (pyToUpper "get")
        (paramsOf (J.obj [("get", J.obj [])]) "parameters") (J.obj [])).path q = false) := by
  refine ⟨?_, ?_, ?_⟩
  · exact (C8_derivation_rule.2.1 [J.obj [("in", J.str "path"), ("required", J.bool true)]]
      (by decide)).mpr
      ⟨J.obj [("in", J.str "path"), ("required", J.bool true)],
        List.mem_singleton.mpr rfl, rfl, rfl⟩
  · exact (C8_derivation_rule.2.2 (J.obj [("requestBody", J.obj [("content", J.null)])])
      (by decide)).mpr rfl
  · have hmem : (mkEndpoint "/items" (pyToUpper "get")
        (paramsOf (J.obj [("get", J.obj [])]) "parameters") (J.obj [])) ∈
        deriveEndpoints ["/health"] (J.obj [("/items", J.obj [("get", J.obj [])])]) := by
      have hder : deriveEndpoints ["/health"] (J.obj [("/items", J.obj [("get", J.obj [])])]) =
          [mkEndpoint "/items" (pyToUpper "get")
            (paramsOf (J.obj [("get", J.obj [])]) "parameters") (J.obj [])] := rfl
      rw [hder]
      exact List.mem_singleton.mpr rfl
    exact (C8_derivation_rule.1 ["/health"] _ _ hmem).1

end Pulse

namespace Pulse

/-- A paths object in which path `p` maps to an operations object in which
method `m` maps to an operation whose `summary` is the string `s`, with
arbitrary sibling bindings at every level. -/
def pathsWithSummary (C1 D1 C2 D2 C3 D3 : List (String × J)) (p m s : String) : J :=
  J.obj (C1 ++ (p, J.obj (C2 ++ (m, J.obj (C3 ++ ("summary", J.str s) :: D3)) :: D2)) :: D1)

theorem pathsOf_wrap (X : J) : pathsOf (J.obj [("paths", X)]) = X := rfl

/-- C7: the refresh hash is a function of the canonical (key-sorted)
serialization of the paths structure — reordering keys does not change it;
refresh skips re-derivation exactly when the hash equals the cached one,
leaving the state untouched; and changing one operation's summary text
changes the hash and makes refresh re-derive, replacing the cached endpoint
list wholesale.  (`h` abstracts sha256, assumed injective, i.e.
collision-free.) -/
theorem C7_hash_gated_refresh (h : String → String) (hinj : Function.Injective h) :
    (∀ j1 j2 : J, canonJ j1 = canonJ j2 → h (jdump j1) = h (jdump j2)) ∧
    (∀ kvs1 kvs2 : List (String × J), List.Perm kvs1 kvs2 → (kvs1.map Prod.fst).Nodup →
      h (jdump (J.obj kvs1)) = h (jdump (J.obj kvs2))) ∧
    (∀ (pfxs : List String) (st : RegistryState) (P : J),
      ((refresh h pfxs st (J.obj [("paths", P)])).2 = false ↔
        some (h (jdump P)) = st.schema_hash) ∧
      ((refresh h pfxs st (J.obj [("paths", P)])).2 = false →
        (refresh h pfxs st (J.obj [("paths", P)])).1 = st)) ∧
    (∀ (pfxs : List String) (C1 D1 C2 D2 C3 D3 : List (String × J)) (p m s s' : String),
      safeStr s = true → safeStr s' = true → s ≠ s' →
      h (jdump (pathsWithSummary C1 D1 C2 D2 C3 D3 p m s')) ≠
        h (jdump (pathsWithSummary C1 D1 C2 D2 C3 D3 p m s)) ∧
      (refresh h pfxs
          { endpoints := deriveEndpoints pfxs (pathsWithSummary C1 D1 C2 D2 C3 D3 p m s),
            schema_hash := some (h (jdump (pathsWithSummary C1 D1 C2 D2 C3 D3 p m s))) }
          (J.obj [("paths", pathsWithSummary C1 D1 C2 D2 C3 D3 p m s')])).2 = true ∧
      (refresh h pfxs
          { endpoints := deriveEndpoints pfxs (pathsWithSummary C1 D1 C2 D2 C3 D3 p m s),
            schema_hash := some (h (jdump (pathsWithSummary C1 D1 C2 D2 C3 D3 p m s))) }
          (J.obj [("paths", pathsWithSummary C1 D1 C2 D2 C3 D3 p m s')])).1.endpoints =
        deriveEndpoints pfxs (pathsWithSummary C1 D1 C2 D2 C3 D3 p m s')) := by
  have hmain : ∀ (C1 D1 C2 D2 C3 D3 : List (String × J)) (p m s s' : String),
      safeStr s = true → safeStr s' = true → s ≠ s' →
      jdump (pathsWithSummary C1 D1 C2 D2 C3 D3 p m s') ≠
        jdump (pathsWithSummary C1 D1 C2 D2 C3 D3 p m s) := by
    intro C1 D1 C2 D2 C3 D3 p m s s' hs hs' hne
    apply jdump_obj_update_ne
    apply jdump_obj_update_ne
    apply jdump_obj_update_ne
    exact jdump_str_ne hs' hs (Ne.symm hne)
  refine ⟨?_, ?_, ?_, ?_⟩
  · intro j1 j2 hc
    unfold jdump
    rw [hc]
  · intro kvs1 kvs2 hperm hnd
    have hc : canonJ (J.obj kvs1) = canonJ (J.obj kvs2) := by
      show J.obj (sortKvs (canonKvs kvs1)) = J.obj (sortKvs (canonKvs kvs2))
      congr 1
      apply eq_of_sorted_perm_nodup (sortKvs_sorted _) (sortKvs_sorted _)
      · refine (sortKvs_perm _).trans (List.Perm.trans ?_ (sortKvs_perm _).symm)
        rw [canonKvs_eq_map, canonKvs_eq_map]
        exact hperm.map _
      · have hkeys : List.Perm ((sortKvs (canonKvs kvs1)).map Prod.fst)
            (kvs1.map Prod.fst) := by
          refine List.Perm.trans (List.Perm.map _ (sortKvs_perm _)) ?_
          rw [canonKvs_eq_map, List.map_map]
          exact List.Perm.refl _
        exact hkeys.nodup_iff.mpr hnd
    unfold jdump
    rw [hc]
  · intro pfxs st P
    constructor
    · by_cases hc : some (h (jdump P)) = st.schema_hash
      · simp [refresh, pathsOf_wrap, hc]
      · simp [refresh, pathsOf_wrap, hc]
    · intro hskip
      by_cases hc : some (h (jdump P)) = st.schema_hash
      · simp [refresh, pathsOf_wrap, hc]
      · simp [refresh, pathsOf_wrap, hc] at hskip
  · intro pfxs C1 D1 C2 D2 C3 D3 p m s s' hs hs' hne
    have hne' := hmain C1 D1 C2 D2 C3 D3 p m s s' hs hs' hne
    have hhash := hinj.ne hne'
    refine ⟨hhash, ?_, ?_⟩
    · simp [refresh, pathsOf_wrap, hhash]
    · simp [refresh, pathsOf_wrap, hhash]

end Pulse

namespace Pulse

theorem C7_hash_gated_refresh_witness :
    jdump (J.obj [("b", J.null), ("a", J.num 1)]) =
      jdump (J.obj [("a", J.num 1), ("b", J.null)]) ∧
    jdump (pathsWithSummary [] [] [] [] [] [] "/x" "get" "b") ≠
      jdump (pathsWithSummary [] [] [] [] [] [] "/x" "get" "a") := by
  have hid : Function.Injective (id : String → String) := fun a b hh => hh
  constructor
  · exact (C7_hash_gated_refresh id hid).2.1 [("b", J.null), ("a", J.num 1)]
      [("a", J.num 1), ("b", J.null)] (List.Perm.swap ("a", J.num 1) ("b", J.null) [])
      (by decide)
  · exact ((C7_hash_gated_refresh id hid).2.2.2 [] [] [] [] [] [] [] "/x" "get" "a" "b"
      (by decide) (by decide) (by decide)).1

def pathEntries (j : J) : List (String × J) :=
  match j with
  | .obj kvs => kvs
  | _ => []

theorem deriveAll_nil_of_excluded {pfxs : List String} {kvs : List (String × J)}
    (h : ∀ kv ∈ kvs, isExcluded pfxs kv.1 = true) : deriveAll pfxs kvs = [] := by
  induction kvs with
  | nil => rfl
  | cons kv rest ih =>
    rw [deriveAll, derivePath, if_pos (h kv (by simp)), List.nil_append]
    exact ih (fun q hq => h q (by simp [hq]))

/-- C10: a dashboard path that normalizes to "/" puts "/" into the
registry's exclusion prefix list; since every operation path starts with
"/", refresh derives an empty endpoint list, so `list_endpoints` and
`auto_probe_targets` (from a fresh registry) return `[]` for every API
description. -/
theorem C10_root_dashboard_no_endpoints (d : String) (hd : dashboardPfx d = "/")
    (h : String → String) (schema : J)
    (hpaths : ∀ kv ∈ pathEntries (pathsOf schema), pyStartswith kv.1 "/" = true) :
    "/" ∈ pulseExcludePfxs d ∧
    deriveEndpoints (pulseExcludePfxs d) (pathsOf schema) = [] ∧
    (list_endpoints h (pulseExcludePfxs d) {} schema).2 = [] ∧
    (auto_probe_targets h (pulseExcludePfxs d) {} schema).2 = [] := by
  have hpfx : pulseExcludePfxs d = ["/", "/health/pulse"] := by
    unfold pulseExcludePfxs
    rw [hd]
    rfl
  have hderive : deriveEndpoints (pulseExcludePfxs d) (pathsOf schema) = [] := by
    unfold deriveEndpoints
    rcases hps : pathsOf schema with _ | b | n | s | xs | pkvs <;> try rfl
    show sortEps (deriveAll (pulseExcludePfxs d) pkvs) = []
    rw [deriveAll_nil_of_excluded]
    · rfl
    · intro kv hkv
      rw [isExcluded, List.any_eq_true]
      refine ⟨"/", by rw [hpfx]; simp, ?_⟩
      refine hpaths kv ?_
      rw [hps]
      exact hkv
  refine ⟨by rw [hpfx]; simp, hderive, ?_, ?_⟩
  · show ((refresh h (pulseExcludePfxs d) {} schema).1).endpoints = []
    rw [refresh, if_neg (by simp)]
    exact hderive
  · show (((refresh h (pulseExcludePfxs d) {} schema).1).endpoints.filter
      (fun e => !e.requires_input)) = []
    rw [refresh, if_neg (by simp)]
    show (deriveEndpoints (pulseExcludePfxs d) (pathsOf schema)).filter _ = []
    rw [hderive]
    rfl

theorem C10_root_dashboard_no_endpoints_witness :
    "/" ∈ pulseExcludePfxs "/" ∧
    deriveEndpoints (pulseExcludePfxs "/")
      (pathsOf (J.obj [("paths", J.obj [("/items", J.obj [("get", J.obj [])])])])) = [] ∧
    (list_endpoints id (pulseExcludePfxs "/") {}
      (J.obj [("paths", J.obj [("/items", J.obj [("get", J.obj [])])])])).2 = [] ∧
    (auto_probe_targets id (pulseExcludePfxs "/") {}
      (J.obj [("paths", J.obj [("/items", J.obj [("get", J.obj [])])])])).2 = [] :=
  C10_root_dashboard_no_endpoints "/" (by decide) id
    (J.obj [("paths", J.obj [("/items", J.obj [("get", J.obj [])])])]) (by decide)

end Pulse
